import Mathlib

/-!
Verification of the playlist composition engine of PPG (Plex Playlist
Generator).  The Python sources (PPG-Genres.py, PPG-Daily.py) are shallowly
embedded: tracks become a record of the attributes the engine reads, the
global `random` module becomes an explicit adversarial oracle (a stream of
natural numbers; every outcome the Python RNG can produce is reachable for
some stream, so a property proved for all streams holds for every sequence
of random choices, and a single stream suffices to exhibit a reachable
counterexample), and percentage configuration values become exact rationals,
with Python `int(x)` truncation modelled as `Int.toNat ∘ Int.floor` on the
non-negative configuration range.
-/

namespace PPG

/-- A media track as the composition engine sees it: a stable identity plus
the resolved attributes consumed by the core (`get_artist_name`,
`get_album_name`, `get_track_duration_seconds`, `get_track_mood` in the
sources).  `artist` holds the result of `get_artist_name` (already
normalized in PPG-Genres.py); `none` stands for a track whose artist could
not be resolved.  Durations are rationals (Plex milliseconds / 1000). -/
structure Track where
  id : Nat
  artist : Option String
  album : Option String
  duration : Option ℚ
  mood : Option String
deriving DecidableEq

/-- Python truthiness on an optional string: `None` and the empty string
are both falsy.  The sources test attribute values with `if artist_name:`
and similar, so an empty-string name behaves exactly like a missing one. -/
def truthy : Option String → Option String
  | none => none
  | some s => if s = "" then none else some s

/-- The artist key a track is grouped and counted under: the truthy value of
`get_artist_name(track)`. -/
def keyOf (t : Track) : Option String := truthy t.artist

/-- The album key a track is grouped under: the truthy value of
`get_album_name(track)`. -/
def albumKey (t : Track) : Option String := truthy t.album

/-- The mood key of a track: the truthy value of `get_track_mood(track)`. -/
def moodKey (t : Track) : Option String := truthy t.mood

/-- Model of `random.sample(l, k)`: `k` draws without replacement, each draw
removing the element at an oracle-chosen index.  Every output Python can
produce is reachable for some stream `r`, and every output of the model is
producible by Python (all call sites pass `k ≤ l.length`). -/
def sampleR {α : Type} (r : Nat → Nat) : Nat → List α → List α
  | 0, _ => []
  | _ + 1, [] => []
  | k + 1, a :: as =>
    let i := r 0 % (a :: as).length
    (a :: as).getD i a :: sampleR (fun j => r (j + 1)) k ((a :: as).eraseIdx i)

/-- Model of `random.choice(l)` (call sites guarantee `l ≠ []`). -/
def choiceR {α : Type} (n : Nat) (l : List α) (d : α) : α :=
  l.getD (n % l.length) d

/-- Model of `random.shuffle(l)`: an oracle-chosen permutation, realized by
sampling the whole list without replacement. -/
def shuffleR {α : Type} (r : Nat → Nat) (l : List α) : List α :=
  sampleR r l.length l

/-- Model of `random.randint(a, b)` (inclusive bounds; call sites guarantee
`a ≤ b`). -/
def randintR (n a b : Nat) : Nat := a + n % (b + 1 - a)

/-- Python `int(n * pct)` for a non-negative rational `pct`: truncation
coincides with the floor.  Used for every `max_percentage`-style cap in the
sources. -/
def capOf (n : Nat) (pct : ℚ) : Nat := (⌊(n : ℚ) * pct⌋).toNat

/-- Keep the first occurrence of every element, in order: the key order of a
Python dict built by insertion. -/
def firstOccs : List String → List String
  | [] => []
  | a :: as => a :: (firstOccs as).filter (fun b => b ≠ a)

/-- Embedding of `filter_by_minimum_duration(tracks, min_duration_seconds)`
(PPG-Genres.py, lines 379-396): drop tracks whose known duration is below
the minimum; tracks with unknown duration pass through.  No backfill. -/
def filter_by_minimum_duration (tracks : List Track) (min_duration_seconds : ℚ) :
    List Track :=
  if min_duration_seconds ≤ 0 then tracks
  else tracks.filter (fun t =>
    match t.duration with
    | none => true
    | some d => min_duration_seconds ≤ d)

/-- Specification-side acceptance predicate for the duration filter, written
from the claim: a track passes when its duration is null or at least the
minimum. -/
def durationAcceptableSpec (m : ℚ) (t : Track) : Bool :=
  match t.duration with
  | none => true
  | some d => m ≤ d

/-- Which side of the liked/other partition a track falls on in
`prefer_liked_artists`: the sources test
`artist_name and artist_name in liked_artists`, so a track with no truthy
artist key always counts as an "other" track. -/
def notLikedB (liked_artists : List String) (t : Track) : Bool :=
  match keyOf t with
  | none => true
  | some a => !(liked_artists.contains a)

/-- Embedding of `prefer_liked_artists(songs, liked_artists, target_count,
max_liked_percentage, min_variety_percentage)` (PPG-Daily.py, lines
312-371).  The PPG-Genres.py copy (lines 722-802) is identical except that
it builds the liked/other partition in parallel batches, which permutes the
two partition lists but not their contents.  Oracle `r0` drives the
empty-liked-set branch, `r1` the guaranteed-variety sample, `r2` the
liked-artist sample, `r3` the final fill from the remaining other songs. -/
def prefer_liked_artists (r0 r1 r2 r3 : Nat → Nat) (songs : List Track)
    (liked_artists : List String) (target_count : Nat)
    (max_liked_percentage min_variety_percentage : ℚ) : List Track :=
  if liked_artists = [] then
    sampleR r0 (min songs.length target_count) songs
  else
    let max_liked_count := capOf target_count max_liked_percentage
    let min_variety_count := capOf target_count min_variety_percentage
    let liked_songs := songs.filter (fun t => !(notLikedB liked_artists t))
    let other_songs := songs.filter (notLikedB liked_artists)
    let sel1 :=
      if other_songs ≠ [] ∧ 0 < min_variety_count then
        sampleR r1 (min other_songs.length min_variety_count) other_songs
      else []
    let rem1 := target_count - sel1.length
    let sel2 :=
      if liked_songs ≠ [] ∧ 0 < rem1 then
        sel1 ++ sampleR r2 (min liked_songs.length (min rem1 max_liked_count))
          liked_songs
      else sel1
    let rem2 := target_count - sel2.length
    if other_songs ≠ [] ∧ 0 < rem2 then
      let available_other := other_songs.filter (fun t => !(sel2.contains t))
      if available_other ≠ [] then
        sel2 ++ sampleR r3
          (min available_other.length (min other_songs.length rem2))
          available_other
      else sel2
    else sel2

/-- Insert a track into insertion-ordered groups under key `k`: append to
the existing entry or add a fresh key at the end — a Python dict of lists
built by repeated `append`. -/
def addToGroups (g : List (String × List Track)) (k : String) (t : Track) :
    List (String × List Track) :=
  match g with
  | [] => [(k, [t])]
  | (k', ts) :: rest =>
    if k' = k then (k', ts ++ [t]) :: rest
    else (k', ts) :: addToGroups rest k t

/-- First entry of the groups with key `k` (empty when absent): a Python
dict read. -/
def lookupG (g : List (String × List Track)) (k : String) : List Track :=
  match g with
  | [] => []
  | (k', ts) :: rest => if k' = k then ts else lookupG rest k

/-- The `album_tracks` dict of `limit_songs_per_album`: tracks grouped by
truthy album name in insertion order; tracks without an album name are not
grouped (which is where the C4 counterexample lives). -/
def albumGroups (l : List Track) : List (String × List Track) :=
  l.foldl (fun g t =>
    match albumKey t with
    | none => g
    | some k => addToGroups g k t) []

/-- The keys of `albums_to_reduce` in `limit_songs_per_album`: albums whose
group exceeds the per-album cap, in dict insertion order. -/
def albumsToReduce (l : List Track) (m : Nat) : List String :=
  ((albumGroups l).filter (fun kt => decide (m < kt.2.length))).map Prod.fst

/-- The rebuild loop of `limit_songs_per_album`: walk the album groups in
dict order, keeping a random `m`-subset of every over-cap group and every
under-cap group whole.  `i` indexes the oracle stream used for the current
group. -/
def capGroups (r : Nat → Nat → Nat) (m : Nat) :
    Nat → List (String × List Track) → List (List Track)
  | _, [] => []
  | i, kt :: rest =>
    (if m < kt.2.length then sampleR (r i) m kt.2 else kt.2) ::
      capGroups r m (i + 1) rest

/-- How many tracks of `l` carry the album key `k`. -/
def countAlbum (l : List Track) (k : String) : Nat :=
  l.countP (fun t => decide (albumKey t = some k))

/-- Specification-side derived quantity: the length of the rebuilt playlist
of `limit_songs_per_album` before backfill (every group contributes
`min m size` tracks), which determines the backfill shortfall. -/
def albumCapKeptLen (l : List Track) (m : Nat) : Nat :=
  ((albumGroups l).map (fun kt => min m kt.2.length)).sum

/-- Specification-side derived quantity: the universe tracks guaranteed to
be eligible for the album-respecting backfill branch — not in the playlist
at all and not from a capped album. -/
def albumSafeBackfill (playlist univ : List Track) (m : Nat) : List Track :=
  univ.filter (fun t =>
    !(decide (t ∈ playlist)) &&
    (match albumKey t with
     | none => true
     | some k => !((albumsToReduce playlist m).contains k)))

/-- Embedding of `limit_songs_per_album(playlist_songs,
all_available_songs, max_per_album)` (PPG-Genres.py, lines 399-462).
The rebuild iterates the album dict; a group is cut to a random `m`-subset
exactly when its size exceeds `m`, i.e. exactly when its key is in
`albums_to_reduce`.  Oracle `r i` drives the sample of the `i`-th group,
`r n` the album-respecting backfill and `r (n+1)` the any-album fallback. -/
def limit_songs_per_album (r : Nat → Nat → Nat)
    (playlist_songs all_available_songs : List Track)
    (max_per_album : Nat) : List Track :=
  if max_per_album = 0 then playlist_songs
  else
    let groups := albumGroups playlist_songs
    let albums_to_reduce := albumsToReduce playlist_songs max_per_album
    if albums_to_reduce = [] then playlist_songs
    else
      let filtered_playlist := (capGroups r max_per_album 0 groups).flatten
      let songs_needed := playlist_songs.length - filtered_playlist.length
      if 0 < songs_needed then
        let available_songs := all_available_songs.filter (fun t =>
          !(filtered_playlist.contains t) &&
          (match albumKey t with
           | none => true
           | some k => !(albums_to_reduce.contains k)))
        if songs_needed ≤ available_songs.length then
          filtered_playlist ++ sampleR (r groups.length) songs_needed
            available_songs
        else
          let available_any := all_available_songs.filter
            (fun t => !(filtered_playlist.contains t))
          if available_any ≠ [] then
            filtered_playlist ++ sampleR (r (groups.length + 1))
              (min songs_needed available_any.length) available_any
          else filtered_playlist
      else filtered_playlist

/-- Embedding of `group_by_mood(playlist_songs)` (PPG-Genres.py, lines
532-597).  Oracle `r 0` shuffles the no-mood-data fallback, `r 1 0` picks
the mood, `r 2` and `r 3` shuffle the matching-mood and other-mood blocks,
`r 4` shuffles the mood-less tracks and `r 5 i` picks the insertion
position of the `i`-th mood-less track.  The `else` arm of the
`if mood_counts:` test in the source is unreachable (the mood list is
non-empty exactly when some track has a mood) but is mirrored by the inner
`moods = []` test. -/
def group_by_mood (r : Nat → Nat → Nat) (playlist_songs : List Track) :
    List Track :=
  let tracks_with_mood := playlist_songs.filter (fun t => (moodKey t).isSome)
  let tracks_without_mood :=
    playlist_songs.filter (fun t => (moodKey t).isNone)
  if tracks_with_mood = [] then shuffleR (r 0) playlist_songs
  else
    let moods := firstOccs (tracks_with_mood.filterMap moodKey)
    if moods = [] then shuffleR (r 0) playlist_songs
    else
      let selected_mood := choiceR (r 1 0) moods ""
      let tracks_matching_mood := tracks_with_mood.filter
        (fun t => decide (moodKey t = some selected_mood))
      let tracks_other_moods := tracks_with_mood.filter
        (fun t => !(decide (moodKey t = some selected_mood)))
      let grouped := shuffleR (r 2) tracks_matching_mood ++
        shuffleR (r 3) tracks_other_moods
      ((shuffleR (r 4) tracks_without_mood).enum).foldl (fun acc it =>
        if tracks_matching_mood.length < acc.length then
          acc.insertIdx (randintR (r 5 it.1) tracks_matching_mood.length
            acc.length) it.2
        else acc ++ [it.2]) grouped

/-- The group key of `prevent_consecutive_artists`: the truthy artist name,
with artist-less tracks collected under the literal dict key "Unknown". -/
def groupKey (t : Track) : String :=
  match keyOf t with
  | some a => a
  | none => "Unknown"

/-- The `artist_tracks` dict of `prevent_consecutive_artists`. -/
def artistGroups (l : List Track) : List (String × List Track) :=
  l.foldl (fun g t => addToGroups g (groupKey t) t) []

/-- Pop the last element of the group with key `k`
(`artist_tracks[next_artist].pop()`). -/
def popLastG (g : List (String × List Track)) (k : String) :
    List (String × List Track) :=
  match g with
  | [] => []
  | (k', ts) :: rest =>
    if k' = k then (k', ts.dropLast) :: rest
    else (k', ts) :: popLastG rest k

/-- Shuffle every group in place (the per-artist `random.shuffle` loop of
`prevent_consecutive_artists`), one oracle stream per group. -/
def shuffleGroups (r : Nat → Nat → Nat) :
    Nat → List (String × List Track) → List (String × List Track)
  | _, [] => []
  | i, kt :: rest => (kt.1, shuffleR (r i) kt.2) :: shuffleGroups r (i + 1) rest

/-- The adjacency test `get_artist_name(reordered[-1]) != candidate`
(a track with no resolvable artist never equals a group-key string). -/
def lastArtistNe (t : Track) (c : String) : Bool :=
  match t.artist with
  | none => true
  | some s => decide (s ≠ c)

/-- Acceptance test of the retry loop: the candidate group still has tracks
and the candidate differs from the artist of the last emitted track. -/
def okNext (g : List (String × List Track)) (c : String)
    (last : Option Track) : Bool :=
  !(lookupG g c).isEmpty &&
    (match last with
     | none => true
     | some t => lastArtistNe t c)

/-- The bounded retry loop of `prevent_consecutive_artists`: up to
`max_attempts` oracle-driven picks from the full artist queue, accepting
the first candidate that passes `okNext`. -/
def findCand (r : Nat → Nat) (queue : List String)
    (g : List (String × List Track)) (last : Option Track) :
    Nat → Option String
  | 0 => none
  | attempts + 1 =>
    let c := choiceR (r 0) queue "Unknown"
    if okNext g c last then some c
    else findCand (fun j => r (j + 1)) queue g last attempts

/-- The next artist to emit: the retry loop, then the fall-back
`random.choice` over the artists that still have tracks (`None` when every
group is exhausted, which makes the while loop break). -/
def nextArtist (r : Nat → Nat → Nat) (step : Nat) (queue : List String)
    (g : List (String × List Track)) (last : Option Track) :
    Option String :=
  match findCand (r step) queue g last (queue.length * 2) with
  | some c => some c
  | none =>
    let avail := queue.filter (fun a => !(lookupG g a).isEmpty)
    if avail = [] then none
    else some (choiceR (r (step + 1) 0) avail "Unknown")

/-- All tracks still held by the groups, in dict order
(`artist_tracks.values()` flattened). -/
def flattenG (g : List (String × List Track)) : List Track :=
  (g.map Prod.snd).flatten

/-- The `while len(reordered) < len(playlist_songs)` loop of
`prevent_consecutive_artists`.  Every iteration either pops the last track
of the chosen artist group onto `reordered` or breaks; each non-breaking
iteration grows `reordered` by one, so fuel `n` covers every Python
execution.  `step` indexes the oracle streams consumed so far. -/
def reorderLoop (r : Nat → Nat → Nat) (n : Nat) (queue : List String) :
    Nat → Nat → List (String × List Track) → List Track →
    List Track × List (String × List Track)
  | _, 0, g, reordered => (reordered, g)
  | step, fuel + 1, g, reordered =>
    if reordered.length < n then
      match nextArtist r step queue g reordered.getLast? with
      | none => (reordered, g)
      | some a =>
        match (lookupG g a).getLast? with
        | none => (reordered, g)
        | some t =>
          reorderLoop r n queue (step + 2) fuel (popLastG g a)
            (reordered ++ [t])
    else (reordered, g)

/-- Embedding of `prevent_consecutive_artists(playlist_songs)`
(PPG-Genres.py, lines 465-529): group by artist, shuffle groups and queue,
interleave with the bounded-retry pick, append any remaining group
contents, truncate to the input length. -/
def prevent_consecutive_artists (r : Nat → Nat → Nat)
    (playlist_songs : List Track) : List Track :=
  if playlist_songs.length < 2 then playlist_songs
  else
    let g0 := artistGroups playlist_songs
    if g0.length ≤ 1 then playlist_songs
    else
      let g1 := shuffleGroups r 0 g0
      let queue := shuffleR (r g0.length) (g1.map Prod.fst)
      let res := reorderLoop r playlist_songs.length queue (g0.length + 1)
        playlist_songs.length g1 []
      (res.1 ++ flattenG res.2).take playlist_songs.length

/-- Concrete playlist for the C2/C4 counterexamples: two tracks of album A,
one of album B (and for C4, a third track with no album name). -/
def c2playlist : List Track :=
  [⟨1, none, some "A", none, none⟩, ⟨2, none, some "A", none, none⟩,
   ⟨3, none, some "B", none, none⟩]

/-- Concrete universe for the C2 counterexample: one more album-B track and
one from a fresh album C. -/
def c2universe : List Track :=
  [⟨4, none, some "B", none, none⟩, ⟨5, none, some "C", none, none⟩]

/-- Concrete playlist for the C4 counterexample: an over-cap album plus a
track with no album name. -/
def c4playlist : List Track :=
  [⟨1, none, some "A", none, none⟩, ⟨2, none, some "A", none, none⟩,
   ⟨3, none, none, none, none⟩]

/-- How many tracks of `l` carry the artist key `a` — the per-artist count
computed by `analyze_artist_distribution`. -/
def countKey (l : List Track) (a : String) : Nat :=
  l.countP (fun t => decide (keyOf t = some a))

/-- The keys of `artists_to_reduce` in `balance_artist_representation`, in
Python dict insertion order (first occurrence in the playlist): the artists
whose track count exceeds the cap. -/
def overCapArtists (playlist_songs : List Track) (cap : Nat) : List String :=
  (firstOccs (playlist_songs.filterMap keyOf)).filter
    (fun a => decide (cap < countKey playlist_songs a))

/-- One round of the per-artist loop of `balance_artist_representation`:
keep `cap` randomly sampled songs of artist `a`, remove the rest with
Python `list.remove` (first equal element). -/
def reduceArtist (r : Nat → Nat) (cap : Nat) (balanced : List Track)
    (a : String) : List Track :=
  let artist_songs := balanced.filter (fun t => decide (keyOf t = some a))
  let songs_to_keep := sampleR r cap artist_songs
  let songs_to_remove :=
    artist_songs.filter (fun t => !(songs_to_keep.contains t))
  songs_to_remove.foldl (fun l t => l.erase t) balanced

/-- Embedding of `balance_artist_representation(playlist_songs,
all_available_songs, max_percentage)` (PPG-Genres.py, lines 637-706;
PPG-Daily.py, lines 240-309, is the same function — its `get_artist_name`
does not normalize, which the pre-resolved `Track.artist` absorbs).  Oracle
`r i` drives the sample for the `i`-th over-cap artist, and `r n` (with `n`
the number of over-cap artists) the backfill sample. -/
def balance_artist_representation (r : Nat → Nat → Nat)
    (playlist_songs all_available_songs : List Track)
    (max_percentage : ℚ) : List Track :=
  let total_songs := playlist_songs.length
  let cap := capOf total_songs max_percentage
  let artists_to_reduce := overCapArtists playlist_songs cap
  if artists_to_reduce = [] then playlist_songs
  else
    let balanced := (artists_to_reduce.enum).foldl
      (fun l ia => reduceArtist (r ia.1) cap l ia.2) playlist_songs
    let songs_needed := total_songs - balanced.length
    if 0 < songs_needed then
      let available := all_available_songs.filter
        (fun t => !(balanced.contains t))
      let filtered_available := available.filter (fun t =>
        match keyOf t with
        | none => true
        | some x => !(artists_to_reduce.contains x))
      if songs_needed ≤ filtered_available.length then
        balanced ++ sampleR (r artists_to_reduce.length) songs_needed
          filtered_available
      else balanced ++ filtered_available
    else balanced

/-- Concrete playlist for the C1 counterexample: three tracks of artist A,
two of artist B — with target 5 and share 2/5 the cap is 2, so A is
over cap and B is exactly at the cap. -/
def c1playlist : List Track :=
  [⟨1, some "A", none, none, none⟩, ⟨2, some "A", none, none, none⟩,
   ⟨3, some "A", none, none, none⟩, ⟨4, some "B", none, none, none⟩,
   ⟨5, some "B", none, none, none⟩]

/-- Concrete universe for the C1 counterexample: a further track of the
at-cap artist B and one of a fresh artist C. -/
def c1universe : List Track :=
  [⟨6, some "B", none, none, none⟩, ⟨7, some "C", none, none, none⟩]

/-- Specification-side abbreviation: the "other artists" side of the
partition built by `prefer_liked_artists`. -/
def otherPool (songs : List Track) (liked_artists : List String) : List Track :=
  songs.filter (notLikedB liked_artists)

/-- Specification-side abbreviation: the "liked artists" side of the
partition built by `prefer_liked_artists`. -/
def likedPool (songs : List Track) (liked_artists : List String) : List Track :=
  songs.filter (fun t => !(notLikedB liked_artists t))

/-- Specification-side derived quantity: how many guaranteed-variety tracks
`prefer_liked_artists` selects in its first step. -/
def varietyCount (songs : List Track) (liked_artists : List String)
    (target_count : Nat) (min_variety_percentage : ℚ) : Nat :=
  if otherPool songs liked_artists ≠ [] ∧
      0 < capOf target_count min_variety_percentage then
    min (otherPool songs liked_artists).length
      (capOf target_count min_variety_percentage)
  else 0

/-- Specification-side derived quantity: how many liked-artist tracks
`prefer_liked_artists` selects in its second step. -/
def likedCount (songs : List Track) (liked_artists : List String)
    (target_count : Nat) (max_liked_percentage min_variety_percentage : ℚ) :
    Nat :=
  if likedPool songs liked_artists ≠ [] ∧
      0 < target_count -
        varietyCount songs liked_artists target_count min_variety_percentage
  then
    min (likedPool songs liked_artists).length
      (min (target_count -
          varietyCount songs liked_artists target_count min_variety_percentage)
        (capOf target_count max_liked_percentage))
  else 0

/-- Concrete pool for the C5 counterexample: one track from an other artist
and ten from a liked artist. -/
def c5pool : List Track :=
  [⟨1, some "O", none, none, none⟩,
   ⟨2, some "L", none, none, none⟩, ⟨3, some "L", none, none, none⟩,
   ⟨4, some "L", none, none, none⟩, ⟨5, some "L", none, none, none⟩,
   ⟨6, some "L", none, none, none⟩, ⟨7, some "L", none, none, none⟩,
   ⟨8, some "L", none, none, none⟩, ⟨9, some "L", none, none, none⟩,
   ⟨10, some "L", none, none, none⟩, ⟨11, some "L", none, none, none⟩]

/-- Python whitespace as tested by `str.split()` and `str.strip()`: the six
ASCII whitespace characters.  The Unicode space code points Python also
strips behave identically in the sources and are omitted from the character
table. -/
def pyWs (c : Char) : Bool :=
  c = ' ' || c = '\t' || c = '\n' || c = '\r' || c = '\x0b' || c = '\x0c'

/-- Python `s.strip()`: drop whitespace from both ends. -/
def stripWs (l : List Char) : List Char :=
  ((l.dropWhile pyWs).reverse.dropWhile pyWs).reverse

/-- Does `pat` occur at the head of the string? -/
def startsWith : List Char → List Char → Bool
  | [], _ => true
  | _ :: _, [] => false
  | p :: ps, c :: cs => p = c && startsWith ps cs

/-- Python `s.replace(pat, rep)` for a non-empty `pat`: scan left to right
replacing non-overlapping occurrences, continuing after each replacement.
Fuelled so that it computes by kernel reduction; every step consumes at
least one character, so fuel `s.length` suffices. -/
def replaceAllF (pat rep : List Char) : Nat → List Char → List Char
  | 0, l => l
  | _ + 1, [] => []
  | fuel + 1, c :: cs =>
    if startsWith pat (c :: cs) then
      rep ++ replaceAllF pat rep fuel ((c :: cs).drop pat.length)
    else c :: replaceAllF pat rep fuel cs

/-- Python `s.replace(pat, rep)`. -/
def replaceAll (pat rep l : List Char) : List Char :=
  replaceAllF pat rep l.length l

/-- Python `s.split()`: split on whitespace runs, producing no empty words;
`acc` is the word being accumulated, reversed. -/
def splitWsAux : List Char → List Char → List (List Char)
  | acc, [] => if acc = [] then [] else [acc.reverse]
  | acc, c :: cs =>
    if pyWs c then
      (if acc = [] then splitWsAux [] cs else acc.reverse :: splitWsAux [] cs)
    else splitWsAux (c :: acc) cs

/-- Python `s.split()`. -/
def splitWs (l : List Char) : List (List Char) := splitWsAux [] l

/-- Python `' '.join(words)`. -/
def joinSp : List (List Char) → List Char
  | [] => []
  | [w] => w
  | w :: (w' :: ws) => w ++ ' ' :: joinSp (w' :: ws)

/-- Embedding of `normalize_artist_name` (PPG-Genres.py, lines 136-157) over
lists of characters: strip, normalize spacing around slashes with three
sequential `replace` calls, then collapse whitespace with
`' '.join(s.split())`.  The call `unicodedata.normalize('NFC', s)` is
modelled as the identity: NFC is the identity on every ASCII string (all
concrete inputs below) and is itself idempotent, so it contributes nothing
to the idempotence question on the modelled character set.  The Python falsy
guard `if not artist_name` returns null exactly for the empty string. -/
def normalize_artist_name (s : List Char) : Option (List Char) :=
  if s = [] then none
  else
    let n1 := stripWs s
    let n2 := replaceAll [' ', '/', ' '] ['/'] n1
    let n3 := replaceAll ['/', ' '] ['/'] n2
    let n4 := replaceAll [' ', '/'] ['/'] n3
    some (joinSp (splitWs n4))

/-- Composition through the nullable result, as in
`normalize_artist_name(normalize_artist_name(s))`: Python returns `None`
unchanged (the falsy guard). -/
def normalize_opt : Option (List Char) → Option (List Char)
  | none => none
  | some l => normalize_artist_name l

/-- Python slice `l[-k:]`: the last `k` elements — except that `k = 0`
degenerates to `l[0:]`, the whole list. -/
def sliceLast {α : Type} (l : List α) (k : Nat) : List α :=
  if k = 0 then l else l.drop (l.length - k)

/-- Embedding of the rotation-log update in `generate_daily_playlists`
(PPG-Daily.py, lines 649-654): append the used theme, then, if the log
exceeds `maxEntries`, keep `daily_log[-MAX_LOG_ENTRIES:]`. -/
def rotation_log_append (log : List String) (theme : String) (maxEntries : Nat) :
    List String :=
  let l := log ++ [theme]
  if maxEntries < l.length then sliceLast l maxEntries else l

end PPG

namespace PPG

/-! Basic facts about the oracle model of `random`. -/

theorem getD_cons_eraseIdx_perm {α : Type} (d : α) :
    ∀ (l : List α) (i : Nat), i < l.length →
      (l.getD i d :: l.eraseIdx i).Perm l := by
  intro l
  induction l with
  | nil => intro i h; simp at h
  | cons a as ih =>
    intro i h
    cases i with
    | zero => simp [List.getD]
    | succ j =>
      have hj : j < as.length := by simpa using h
      have step : ((a :: as).getD (j + 1) d :: (a :: as).eraseIdx (j + 1)).Perm
          (a :: (as.getD j d :: as.eraseIdx j)) := by
        simp only [List.getD_cons_succ, List.eraseIdx_cons_succ]
        exact List.Perm.swap a (as.getD j d) (as.eraseIdx j)
      exact step.trans (List.Perm.cons a (ih j hj))

theorem sampleR_length {α : Type} :
    ∀ (k : Nat) (r : Nat → Nat) (l : List α),
      (sampleR r k l).length = min k l.length := by
  intro k
  induction k with
  | zero => intro r l; simp [sampleR]
  | succ k ih =>
    intro r l
    cases l with
    | nil => simp [sampleR]
    | cons a as =>
      have hlt : r 0 % (as.length + 1) < as.length + 1 :=
        Nat.mod_lt _ (Nat.succ_pos _)
      simp only [sampleR, List.length_cons, ih, List.length_eraseIdx, hlt,
        if_pos]
      omega

theorem sampleR_subperm {α : Type} :
    ∀ (k : Nat) (r : Nat → Nat) (l : List α), (sampleR r k l).Subperm l := by
  intro k
  induction k with
  | zero => intro r l; simp [sampleR]
  | succ k ih =>
    intro r l
    cases l with
    | nil => simp [sampleR]
    | cons a as =>
      have hlt : r 0 % (a :: as).length < (a :: as).length :=
        Nat.mod_lt _ (by simp)
      have hperm := getD_cons_eraseIdx_perm a (a :: as) _ hlt
      have hsub : (sampleR (fun j => r (j + 1)) k
          ((a :: as).eraseIdx (r 0 % (a :: as).length))).Subperm
          ((a :: as).eraseIdx (r 0 % (a :: as).length)) := ih _ _
      have heq : sampleR r (k + 1) (a :: as) =
          (a :: as).getD (r 0 % (a :: as).length) a ::
            sampleR (fun j => r (j + 1)) k
              ((a :: as).eraseIdx (r 0 % (a :: as).length)) := rfl
      rw [heq]
      exact ((List.subperm_cons _).mpr hsub).trans hperm.subperm

theorem sampleR_subset {α : Type} (k : Nat) (r : Nat → Nat) (l : List α) :
    sampleR r k l ⊆ l :=
  (sampleR_subperm k r l).subset

theorem sampleR_perm_of_length {α : Type} :
    ∀ (l : List α) (k : Nat) (r : Nat → Nat), k = l.length →
      (sampleR r k l).Perm l := by
  intro l k r hk
  have h1 := sampleR_subperm (α := α) k r l
  have h2 : (sampleR r k l).length = l.length := by
    rw [sampleR_length, hk, Nat.min_self]
  exact h1.perm_of_length_le (le_of_eq h2.symm)

theorem shuffleR_perm {α : Type} (r : Nat → Nat) (l : List α) :
    (shuffleR r l).Perm l :=
  sampleR_perm_of_length l l.length r rfl

theorem sampleR_nodup {α : Type} (k : Nat) (r : Nat → Nat) (l : List α)
    (h : l.Nodup) : (sampleR r k l).Nodup := by
  obtain ⟨m, hm, hs⟩ := sampleR_subperm k r l
  exact hm.nodup (hs.nodup h)

theorem choiceR_mem {α : Type} (n : Nat) (l : List α) (d : α) (h : l ≠ []) :
    choiceR n l d ∈ l := by
  have hlt : n % l.length < l.length :=
    Nat.mod_lt _ (List.length_pos.mpr h)
  rw [choiceR, List.getD_eq_getElem l d hlt]
  exact List.getElem_mem _

/-! Lemmas about the character-level string operations of the normalizer. -/

theorem startsWith_subset :
    ∀ (pat l : List Char), startsWith pat l = true → ∀ x ∈ pat, x ∈ l := by
  intro pat
  induction pat with
  | nil => intro l _ x hx; simp at hx
  | cons p ps ih =>
    intro l h x hx
    cases l with
    | nil => simp [startsWith] at h
    | cons c cs =>
      simp only [startsWith, Bool.and_eq_true, decide_eq_true_eq] at h
      rcases List.mem_cons.mp hx with rfl | hx'
      · exact h.1 ▸ List.mem_cons_self _ _
      · exact List.mem_cons_of_mem _ (ih cs h.2 x hx')

theorem replaceAllF_id_of_not_mem (x : Char) (pat rep : List Char)
    (hx : x ∈ pat) :
    ∀ (fuel : Nat) (l : List Char), x ∉ l → replaceAllF pat rep fuel l = l := by
  intro fuel
  induction fuel with
  | zero => intro l _; rfl
  | succ fuel ih =>
    intro l hl
    cases l with
    | nil => rfl
    | cons c cs =>
      have hs : ¬ startsWith pat (c :: cs) = true := fun h =>
        hl (startsWith_subset pat (c :: cs) h x hx)
      simp only [replaceAllF, if_neg hs]
      have : x ∉ cs := fun h => hl (List.mem_cons_of_mem _ h)
      rw [ih cs this]

theorem replaceAll_id_of_not_mem (x : Char) (pat rep l : List Char)
    (hx : x ∈ pat) (hl : x ∉ l) : replaceAll pat rep l = l :=
  replaceAllF_id_of_not_mem x pat rep hx l.length l hl

theorem mem_dropWhile_of_neg {α : Type} (p : α → Bool) (c : α)
    (hc : p c = false) :
    ∀ l : List α, c ∈ l → c ∈ l.dropWhile p := by
  intro l
  induction l with
  | nil => intro h; simp at h
  | cons a as ih =>
    intro h
    by_cases ha : p a = true
    · rw [List.dropWhile_cons_of_pos ha]
      rcases List.mem_cons.mp h with rfl | h'
      · rw [hc] at ha; exact absurd ha (by simp)
      · exact ih h'
    · rw [List.dropWhile_cons_of_neg ha]
      exact h

theorem stripWs_subset (l : List Char) : stripWs l ⊆ l := by
  intro c hc
  unfold stripWs at hc
  rw [List.mem_reverse] at hc
  have h1 := (List.dropWhile_sublist (l := (l.dropWhile pyWs).reverse)
    (p := pyWs)).subset hc
  rw [List.mem_reverse] at h1
  exact (List.dropWhile_sublist (l := l) (p := pyWs)).subset h1

theorem mem_stripWs_of_neg (c : Char) (hc : pyWs c = false) (l : List Char)
    (h : c ∈ l) : c ∈ stripWs l := by
  unfold stripWs
  rw [List.mem_reverse]
  apply mem_dropWhile_of_neg pyWs c hc
  rw [List.mem_reverse]
  exact mem_dropWhile_of_neg pyWs c hc l h

theorem splitWsAux_ne_nil_of_acc :
    ∀ (l acc : List Char), acc ≠ [] → splitWsAux acc l ≠ [] := by
  intro l
  induction l with
  | nil => intro acc h; simp [splitWsAux, h]
  | cons c cs ih =>
    intro acc h
    by_cases hw : pyWs c = true
    · simp only [splitWsAux, hw, if_true, if_neg h]
      simp
    · simp only [splitWsAux, hw, if_false]
      exact ih (c :: acc) (by simp)

theorem splitWsAux_ne_nil :
    ∀ (l : List Char) (acc : List Char), (∃ c ∈ l, pyWs c = false) →
      splitWsAux acc l ≠ [] := by
  intro l
  induction l with
  | nil => intro acc h; obtain ⟨c, hc, _⟩ := h; simp at hc
  | cons c cs ih =>
    intro acc h
    by_cases hw : pyWs c = true
    · obtain ⟨d, hd, hdw⟩ := h
      have hdcs : d ∈ cs := by
        rcases List.mem_cons.mp hd with rfl | h'
        · rw [hw] at hdw; exact absurd hdw (by simp)
        · exact h'
      by_cases ha : acc = []
      · simp only [splitWsAux, hw, if_true, ha, if_true]
        exact ih [] ⟨d, hdcs, hdw⟩
      · simp only [splitWsAux, hw, if_true, if_neg ha]
        simp
    · simp only [splitWsAux, hw, if_false]
      exact splitWsAux_ne_nil_of_acc cs (c :: acc) (by simp)

theorem splitWsAux_words :
    ∀ (l acc : List Char), (∀ c ∈ acc, pyWs c = false) →
      ∀ w ∈ splitWsAux acc l, w ≠ [] ∧ ∀ c ∈ w, pyWs c = false := by
  intro l
  induction l with
  | nil =>
    intro acc hacc w hw
    by_cases ha : acc = []
    · simp [splitWsAux, ha] at hw
    · simp only [splitWsAux, if_neg ha, List.mem_singleton] at hw
      subst hw
      refine ⟨by simpa using ha, ?_⟩
      intro c hc
      exact hacc c (List.mem_reverse.mp hc)
  | cons c cs ih =>
    intro acc hacc w hw
    by_cases hws : pyWs c = true
    · by_cases ha : acc = []
      · simp only [splitWsAux, hws, if_true, ha, if_true] at hw
        exact ih [] (by simp) w hw
      · simp only [splitWsAux, hws, if_true, if_neg ha, List.mem_cons] at hw
        rcases hw with rfl | hw'
        · refine ⟨by simpa using ha, ?_⟩
          intro d hd
          exact hacc d (List.mem_reverse.mp hd)
        · exact ih [] (by simp) w hw'
    · simp only [splitWsAux, hws, if_false] at hw
      refine ih (c :: acc) ?_ w hw
      intro d hd
      rcases List.mem_cons.mp hd with rfl | hd'
      · simpa using hws
      · exact hacc d hd'

theorem splitWsAux_chars :
    ∀ (l acc : List Char), ∀ w ∈ splitWsAux acc l, ∀ c ∈ w,
      c ∈ acc ∨ c ∈ l := by
  intro l
  induction l with
  | nil =>
    intro acc w hw c hc
    by_cases ha : acc = []
    · simp [splitWsAux, ha] at hw
    · simp only [splitWsAux, if_neg ha, List.mem_singleton] at hw
      subst hw
      exact Or.inl (List.mem_reverse.mp hc)
  | cons a as ih =>
    intro acc w hw c hc
    by_cases hws : pyWs a = true
    · by_cases ha : acc = []
      · simp only [splitWsAux, hws, if_true, ha, if_true] at hw
        rcases ih [] w hw c hc with h | h
        · simp at h
        · exact Or.inr (List.mem_cons_of_mem _ h)
      · simp only [splitWsAux, hws, if_true, if_neg ha, List.mem_cons] at hw
        rcases hw with rfl | hw'
        · exact Or.inl (List.mem_reverse.mp hc)
        · rcases ih [] w hw' c hc with h | h
          · simp at h
          · exact Or.inr (List.mem_cons_of_mem _ h)
    · simp only [splitWsAux, hws, if_false] at hw
      rcases ih (a :: acc) w hw c hc with h | h
      · rcases List.mem_cons.mp h with rfl | h'
        · exact Or.inr (List.mem_cons_self _ _)
        · exact Or.inl h'
      · exact Or.inr (List.mem_cons_of_mem _ h)

theorem joinSp_mem :
    ∀ (ws : List (List Char)) (c : Char), c ∈ joinSp ws →
      c = ' ' ∨ ∃ w ∈ ws, c ∈ w := by
  intro ws
  induction ws with
  | nil => intro c hc; simp [joinSp] at hc
  | cons w tail ih =>
    intro c hc
    cases tail with
    | nil =>
      simp only [joinSp] at hc
      exact Or.inr ⟨w, List.mem_cons_self _ _, hc⟩
    | cons w' ws' =>
      simp only [joinSp, List.mem_append, List.mem_cons] at hc
      rcases hc with h | h | h
      · exact Or.inr ⟨w, List.mem_cons_self _ _, h⟩
      · exact Or.inl h
      · rcases ih c h with h' | ⟨u, hu, hcu⟩
        · exact Or.inl h'
        · exact Or.inr ⟨u, List.mem_cons_of_mem _ hu, hcu⟩

theorem joinSp_ne_nil :
    ∀ (ws : List (List Char)), ws ≠ [] → (∀ w ∈ ws, w ≠ []) →
      joinSp ws ≠ [] := by
  intro ws hne hw
  cases ws with
  | nil => exact absurd rfl hne
  | cons w tail =>
    cases tail with
    | nil =>
      simpa [joinSp] using hw w (List.mem_cons_self _ _)
    | cons w' ws' =>
      simp [joinSp]

theorem getLast?_cons_of_ne_nil {α : Type} (a : α) :
    ∀ (l : List α), l ≠ [] → (a :: l).getLast? = l.getLast? := by
  intro l hl
  cases l with
  | nil => exact absurd rfl hl
  | cons b bs => simp [List.getLast?_cons_cons]

theorem mem_of_getLast?_eq {α : Type} :
    ∀ (l : List α) (a : α), l.getLast? = some a → a ∈ l := by
  intro l
  induction l with
  | nil => intro a h; simp at h
  | cons b bs ih =>
    intro a h
    cases bs with
    | nil =>
      simp only [List.getLast?_singleton, Option.some.injEq] at h
      subst h
      exact List.mem_cons_self _ _
    | cons b' bs' =>
      rw [getLast?_cons_of_ne_nil _ _ (by simp)] at h
      exact List.mem_cons_of_mem _ (ih a h)

theorem joinSp_head_char :
    ∀ (ws : List (List Char)),
      (∀ w ∈ ws, w ≠ [] ∧ ∀ c ∈ w, pyWs c = false) →
      ∀ c, (joinSp ws).head? = some c → pyWs c = false := by
  intro ws hws c hc
  cases ws with
  | nil => simp [joinSp] at hc
  | cons w tail =>
    obtain ⟨hwne, hwchars⟩ := hws w (List.mem_cons_self _ _)
    cases w with
    | nil => exact absurd rfl hwne
    | cons a as =>
      have : c = a := by
        cases tail with
        | nil => simp [joinSp] at hc; exact hc.symm
        | cons w' ws' => simp [joinSp] at hc; exact hc.symm
      subst this
      exact hwchars c (List.mem_cons_self _ _)

theorem joinSp_last_char :
    ∀ (ws : List (List Char)),
      (∀ w ∈ ws, w ≠ [] ∧ ∀ c ∈ w, pyWs c = false) →
      ∀ c, (joinSp ws).getLast? = some c → pyWs c = false := by
  intro ws
  induction ws with
  | nil => intro _ c hc; simp [joinSp] at hc
  | cons w tail ih =>
    intro hws c hc
    obtain ⟨hwne, hwchars⟩ := hws w (List.mem_cons_self _ _)
    cases tail with
    | nil =>
      simp only [joinSp] at hc
      exact hwchars c (mem_of_getLast?_eq w c hc)
    | cons w' ws' =>
      have htail : ∀ u ∈ w' :: ws', u ≠ [] ∧ ∀ c ∈ u, pyWs c = false :=
        fun u hu => hws u (List.mem_cons_of_mem _ hu)
      have hjoin : joinSp (w' :: ws') ≠ [] :=
        joinSp_ne_nil _ (by simp) (fun u hu => (htail u hu).1)
      simp only [joinSp] at hc
      have hsplit : (w ++ ' ' :: joinSp (w' :: ws')).getLast? =
          (' ' :: joinSp (w' :: ws')).getLast? :=
        List.getLast?_append_of_ne_nil _ (by simp)
      rw [hsplit, getLast?_cons_of_ne_nil _ _ hjoin] at hc
      exact ih htail c hc

theorem dropWhile_eq_self_of_head {α : Type} (p : α → Bool) :
    ∀ l : List α, (∀ c, l.head? = some c → p c = false) →
      l.dropWhile p = l := by
  intro l h
  cases l with
  | nil => rfl
  | cons a as =>
    have := h a (by simp)
    rw [List.dropWhile_cons_of_neg (by simp [this])]

theorem stripWs_joinSp (ws : List (List Char))
    (h : ∀ w ∈ ws, w ≠ [] ∧ ∀ c ∈ w, pyWs c = false) :
    stripWs (joinSp ws) = joinSp ws := by
  unfold stripWs
  rw [dropWhile_eq_self_of_head pyWs _ (joinSp_head_char ws h)]
  rw [dropWhile_eq_self_of_head pyWs _ (by
    intro c hc
    rw [List.head?_reverse] at hc
    exact joinSp_last_char ws h c hc)]
  exact List.reverse_reverse _

theorem pyWs_space : pyWs ' ' = true := by decide

theorem splitWsAux_all_nonws :
    ∀ (l acc : List Char), (∀ c ∈ l, pyWs c = false) →
      splitWsAux acc l =
        if acc.reverse ++ l = [] then [] else [acc.reverse ++ l] := by
  intro l
  induction l with
  | nil =>
    intro acc _
    simp only [splitWsAux, List.append_nil]
    by_cases h : acc = []
    · simp [h]
    · rw [if_neg h, if_neg (by simpa using h)]
  | cons c cs ih =>
    intro acc hl
    have hc : ¬ pyWs c = true := by
      simp [hl c (List.mem_cons_self _ _)]
    simp only [splitWsAux, hc, if_false]
    rw [ih (c :: acc) (fun d hd => hl d (List.mem_cons_of_mem _ hd))]
    have : (c :: acc).reverse ++ cs = acc.reverse ++ c :: cs := by simp
    rw [this]
    simp

theorem splitWsAux_word_sep :
    ∀ (w acc rest : List Char), (∀ c ∈ w, pyWs c = false) →
      acc.reverse ++ w ≠ [] →
      splitWsAux acc (w ++ ' ' :: rest) =
        (acc.reverse ++ w) :: splitWsAux [] rest := by
  intro w
  induction w with
  | nil =>
    intro acc rest _ hne
    simp only [List.nil_append, List.append_nil] at *
    have hacc : acc ≠ [] := by simpa using hne
    simp only [splitWsAux, pyWs_space, if_true, if_neg hacc]
  | cons c cw ih =>
    intro acc rest hw hne
    have hc : ¬ pyWs c = true := by
      simp [hw c (List.mem_cons_self _ _)]
    simp only [List.cons_append, splitWsAux, hc, if_false]
    rw [show cw.append (' ' :: rest) = cw ++ ' ' :: rest from rfl]
    rw [ih (c :: acc) rest (fun d hd => hw d (List.mem_cons_of_mem _ hd))
      (by simp)]
    have : (c :: acc).reverse ++ cw = acc.reverse ++ c :: cw := by simp
    rw [this]
    simp

theorem splitWs_joinSp :
    ∀ (ws : List (List Char)),
      (∀ w ∈ ws, w ≠ [] ∧ ∀ c ∈ w, pyWs c = false) →
      splitWs (joinSp ws) = ws := by
  intro ws
  induction ws with
  | nil => intro _; rfl
  | cons w tail ih =>
    intro h
    obtain ⟨hwne, hwchars⟩ := h w (List.mem_cons_self _ _)
    cases tail with
    | nil =>
      simp only [joinSp, splitWs]
      rw [splitWsAux_all_nonws w [] hwchars]
      simp [hwne]
    | cons w' ws' =>
      have htail : ∀ u ∈ w' :: ws', u ≠ [] ∧ ∀ c ∈ u, pyWs c = false :=
        fun u hu => h u (List.mem_cons_of_mem _ hu)
      simp only [joinSp, splitWs]
      rw [splitWsAux_word_sep w [] _ hwchars (by simpa using hwne)]
      simp only [List.reverse_nil, List.nil_append]
      exact congrArg (w :: ·) (ih htail)

theorem normalize_artist_name_of_no_slash (s : List Char) (hne : s ≠ [])
    (hs : '/' ∉ s) :
    normalize_artist_name s = some (joinSp (splitWs (stripWs s))) := by
  have hstrip : '/' ∉ stripWs s := fun h => hs (stripWs_subset s h)
  have h1 : replaceAll [' ', '/', ' '] ['/'] (stripWs s) = stripWs s :=
    replaceAll_id_of_not_mem '/' _ _ _ (by decide) hstrip
  have h2 : replaceAll ['/', ' '] ['/'] (stripWs s) = stripWs s :=
    replaceAll_id_of_not_mem '/' _ _ _ (by decide) hstrip
  have h3 : replaceAll [' ', '/'] ['/'] (stripWs s) = stripWs s :=
    replaceAll_id_of_not_mem '/' _ _ _ (by decide) hstrip
  unfold normalize_artist_name
  rw [if_neg hne]
  simp only [h1, h2, h3]

/-- C3 counterexample: normalization is not idempotent.  On the ASCII string
with a double space before a slash, the first pass only removes one of the
two spaces before the slash (the replace patterns assume single spaces, and
whitespace collapsing runs after them), so a second pass removes more; and a
string of only whitespace normalizes to the empty string, which the falsy
guard of a second application turns into null. -/
theorem C3_normalize_not_idempotent :
    (normalize_opt (normalize_artist_name ['A', ' ', ' ', '/', 'B']) ≠
      normalize_artist_name ['A', ' ', ' ', '/', 'B']) ∧
    (normalize_opt (normalize_artist_name [' ']) ≠
      normalize_artist_name [' ']) := by
  constructor <;> decide

/-- C3 (amended): normalization is idempotent on every string that contains
no slash and at least one non-whitespace character.  (In general it is not:
a run of two or more whitespace characters adjacent to a slash survives the
first pass but not the second, and an all-whitespace string normalizes to
the empty string, which a second application maps to null.) -/
theorem C3_normalize_idempotent_amended (s : List Char)
    (hs : '/' ∉ s) (hc : ∃ c ∈ s, pyWs c = false) :
    normalize_opt (normalize_artist_name s) = normalize_artist_name s := by
  have hne : s ≠ [] := by
    rintro rfl
    obtain ⟨c, hc', _⟩ := hc
    simp at hc'
  have hmain := normalize_artist_name_of_no_slash s hne hs
  rw [hmain]
  obtain ⟨c, hcs, hcw⟩ := hc
  have hwords : ∀ w ∈ splitWs (stripWs s), w ≠ [] ∧ ∀ d ∈ w, pyWs d = false :=
    splitWsAux_words (stripWs s) [] (by simp)
  have hsplit_ne : splitWs (stripWs s) ≠ [] :=
    splitWsAux_ne_nil (stripWs s) []
      ⟨c, mem_stripWs_of_neg c hcw s hcs, hcw⟩
  have hu_ne : joinSp (splitWs (stripWs s)) ≠ [] :=
    joinSp_ne_nil _ hsplit_ne (fun w hw => (hwords w hw).1)
  have hu_slash : '/' ∉ joinSp (splitWs (stripWs s)) := by
    intro h
    rcases joinSp_mem _ '/' h with h' | ⟨w, hw, hcw'⟩
    · exact absurd h' (by decide)
    · rcases splitWsAux_chars (stripWs s) [] w hw '/' hcw' with h'' | h''
      · simp at h''
      · exact hs (stripWs_subset s h'')
  show normalize_artist_name (joinSp (splitWs (stripWs s))) = _
  rw [normalize_artist_name_of_no_slash _ hu_ne hu_slash]
  rw [stripWs_joinSp _ hwords, splitWs_joinSp _ hwords]

theorem C3_normalize_idempotent_amended_witness :
    ('/' ∉ ['A', 'C', ' ', ' ', 'D', 'C'] ∧
      ∃ c ∈ ['A', 'C', ' ', ' ', 'D', 'C'], pyWs c = false) ∧
    normalize_opt (normalize_artist_name ['A', 'C', ' ', ' ', 'D', 'C']) =
      normalize_artist_name ['A', 'C', ' ', ' ', 'D', 'C'] :=
  ⟨⟨by decide, by decide⟩,
    C3_normalize_idempotent_amended _ (by decide) (by decide)⟩

/-- C8: for every input list and `min_duration_seconds > 0`,
`filter_by_minimum_duration` returns exactly the input tracks whose duration
is null or at least the minimum — known-short tracks are dropped and
null-duration tracks pass through — with no backfill, so the output may be
shorter than the input. -/
theorem C8_duration_filter_exact (tracks : List Track) (m : ℚ) (hm : 0 < m) :
    filter_by_minimum_duration tracks m =
      tracks.filter (durationAcceptableSpec m) ∧
    (filter_by_minimum_duration tracks m).length ≤ tracks.length := by
  have hne : ¬ m ≤ 0 := not_le.mpr hm
  constructor
  · unfold filter_by_minimum_duration
    rw [if_neg hne]
    rfl
  · unfold filter_by_minimum_duration
    rw [if_neg hne]
    exact List.length_filter_le _ _

theorem C8_duration_filter_exact_witness :
    (0 : ℚ) < 90 ∧
    (filter_by_minimum_duration
        [⟨1, none, none, some 30, none⟩, ⟨2, none, none, none, none⟩,
         ⟨3, none, none, some 200, none⟩] 90 =
      List.filter (durationAcceptableSpec 90)
        [⟨1, none, none, some 30, none⟩, ⟨2, none, none, none, none⟩,
         ⟨3, none, none, some 200, none⟩] ∧
     (filter_by_minimum_duration
        [⟨1, none, none, some 30, none⟩, ⟨2, none, none, none, none⟩,
         ⟨3, none, none, some 200, none⟩] 90).length ≤
       ([⟨1, none, none, some 30, none⟩, ⟨2, none, none, none, none⟩,
         ⟨3, none, none, some 200, none⟩] : List Track).length) :=
  ⟨by norm_num, C8_duration_filter_exact _ 90 (by norm_num)⟩

/-- C9 counterexample: with configured maximum 0 the trim slice
`daily_log[-0:]` is `daily_log[0:]`, the whole list, so the appended log is
not trimmed and its length exceeds the configured maximum. -/
theorem C9_rotation_log_counterexample :
    rotation_log_append [] "Rock Mix" 0 = ["Rock Mix"] ∧
    ¬ (rotation_log_append [] "Rock Mix" 0).length ≤ 0 := by
  constructor <;> simp [rotation_log_append, sliceLast]

/-- C9 (amended): provided the configured maximum is at least 1, appending
the used theme and trimming keeps the log at no more than the maximum, and
the retained entries are exactly the most recently appended ones in
insertion order — the final segment of the appended log. -/
theorem C9_rotation_log_fifo (log : List String) (theme : String) (k : Nat)
    (hk : 1 ≤ k) :
    (rotation_log_append log theme k).length ≤ k ∧
    rotation_log_append log theme k =
      (log ++ [theme]).drop ((log.length + 1) - k) := by
  have hlen : (log ++ [theme]).length = log.length + 1 := by simp
  unfold rotation_log_append sliceLast
  by_cases h : k < (log ++ [theme]).length
  · rw [if_pos h, if_neg (by omega), hlen]
    constructor
    · rw [List.length_drop]
      omega
    · rfl
  · rw [if_neg h]
    have h0 : log.length + 1 - k = 0 := by omega
    rw [h0, List.drop_zero]
    constructor
    · omega
    · rfl

/-! Counting helpers used for the liked-artist selector. -/

theorem capOf_le (n : Nat) (q : ℚ) (h : q ≤ 1) : capOf n q ≤ n := by
  unfold capOf
  have h1 : (n : ℚ) * q ≤ (n : ℚ) := by
    calc (n : ℚ) * q ≤ (n : ℚ) * 1 :=
          mul_le_mul_of_nonneg_left h (by positivity)
      _ = (n : ℚ) := mul_one _
  have h2 : (⌊(n : ℚ) * q⌋ : ℤ) ≤ (n : ℤ) := by
    have h3 := Int.floor_le_floor h1
    rwa [Int.floor_natCast] at h3
  exact Int.toNat_le.mpr h2

theorem countP_or_of_disjoint {α : Type} (p q : α → Bool) :
    ∀ l : List α, (∀ x ∈ l, ¬(p x = true ∧ q x = true)) →
      l.countP (fun x => p x || q x) = l.countP p + l.countP q := by
  intro l
  induction l with
  | nil => intro _; simp
  | cons a as ih =>
    intro h
    have htail : ∀ x ∈ as, ¬(p x = true ∧ q x = true) :=
      fun x hx => h x (List.mem_cons_of_mem _ hx)
    have ha := h a (List.mem_cons_self _ _)
    simp only [List.countP_cons, ih htail]
    rcases Bool.eq_false_or_eq_true (p a) with hp | hp <;>
      rcases Bool.eq_false_or_eq_true (q a) with hq | hq
    · exact absurd ⟨hp, hq⟩ ha
    · simp [hp, hq]; omega
    · simp [hp, hq]; omega
    · simp [hp, hq]

theorem countP_not_add {α : Type} (p : α → Bool) :
    ∀ l : List α, l.countP p + l.countP (fun x => !(p x)) = l.length := by
  intro l
  induction l with
  | nil => simp
  | cons a as ih =>
    simp only [List.countP_cons, List.length_cons]
    rcases Bool.eq_false_or_eq_true (p a) with hp | hp <;> simp [hp] <;> omega

theorem countP_mem_of_nodup {α : Type} [DecidableEq α] :
    ∀ (s l : List α), l.Nodup → s.Nodup → (∀ x ∈ s, x ∈ l) →
      l.countP (fun a => decide (a ∈ s)) = s.length := by
  intro s
  induction s with
  | nil => intro l _ _ _; simp
  | cons b s' ih =>
    intro l hl hs hsub
    obtain ⟨hbs', hs'⟩ := List.nodup_cons.mp hs
    have hcongr : l.countP (fun a => decide (a ∈ b :: s')) =
        l.countP (fun a => decide (a = b) || decide (a ∈ s')) := by
      apply List.countP_congr
      intro x _
      simp [List.mem_cons]
    have hdisj : ∀ x ∈ l,
        ¬(decide (x = b) = true ∧ decide (x ∈ s') = true) := by
      intro x _ ⟨h1, h2⟩
      rw [decide_eq_true_eq] at h1 h2
      exact hbs' (h1 ▸ h2)
    have hone : l.countP (fun a => decide (a = b)) = 1 := by
      have hcount : l.count b = 1 :=
        List.count_eq_one_of_mem hl (hsub b (List.mem_cons_self _ _))
      rw [List.count_eq_countP] at hcount
      rw [← hcount]
      apply List.countP_congr
      intro x _
      simp [beq_iff_eq]
    rw [hcongr, countP_or_of_disjoint _ _ l hdisj, hone,
      ih l hl hs' (fun x hx => hsub x (List.mem_cons_of_mem _ hx))]
    simp [Nat.add_comm]

theorem contains_eq_decide_mem {α : Type} [DecidableEq α] (l : List α)
    (a : α) : l.contains a = decide (a ∈ l) := by
  by_cases h : a ∈ l <;> simp [h]

theorem length_filter_not_mem {α : Type} [DecidableEq α]
    (l w s : List α) (hl : l.Nodup) (hs : s.Nodup)
    (hsl : ∀ x ∈ s, x ∈ l) (hiff : ∀ x ∈ l, (x ∈ w ↔ x ∈ s)) :
    (l.filter (fun a => !(decide (a ∈ w)))).length = l.length - s.length := by
  have hcong : l.countP (fun a => decide (a ∈ w)) =
      l.countP (fun a => decide (a ∈ s)) := by
    apply List.countP_congr
    intro x hx
    simp [hiff x hx]
  have hmem := countP_mem_of_nodup s l hl hs hsl
  have hnot : l.countP (fun a => decide (a ∈ w)) +
      l.countP (fun a => !(decide (a ∈ w))) = l.length :=
    countP_not_add _ l
  rw [← List.countP_eq_length_filter]
  omega

theorem le_countP_append {α : Type} (p : α → Bool) (A B : List α) :
    A.countP p ≤ (A ++ B).countP p := by
  rw [List.countP_append]
  omega

/-- The exact output length of `prefer_liked_artists` for a non-empty liked
set: the target, unless the other pool plus the (cap-limited) liked
contribution cannot reach it. -/
theorem prefer_liked_length_formula (r0 r1 r2 r3 : Nat → Nat)
    (songs : List Track) (liked : List String) (target : Nat)
    (maxp minp : ℚ) (hl : liked ≠ []) (hnd : songs.Nodup)
    (hminp : minp ≤ 1) :
    (prefer_liked_artists r0 r1 r2 r3 songs liked target maxp minp).length =
      min target ((otherPool songs liked).length +
        likedCount songs liked target maxp minp) := by
  have hcap_t : capOf target minp ≤ target := capOf_le target minp hminp
  simp only [prefer_liked_artists, otherPool, likedPool, varietyCount,
    likedCount]
  rw [if_neg hl]
  set O := songs.filter (notLikedB liked) with hO
  set K := songs.filter (fun t => !(notLikedB liked t)) with hK
  have hOnd : O.Nodup := hnd.filter _
  -- Step 1: the guaranteed-variety sample.
  obtain ⟨v, hv_eq, hv_len, hv_sub, hv_nd⟩ :
      ∃ v : List Track,
        (if O ≠ [] ∧ 0 < capOf target minp then
            sampleR r1 (min O.length (capOf target minp)) O else []) = v ∧
        v.length = (if O ≠ [] ∧ 0 < capOf target minp then
            min O.length (capOf target minp) else 0) ∧
        (∀ x ∈ v, x ∈ O) ∧ v.Nodup := by
    by_cases hc1 : O ≠ [] ∧ 0 < capOf target minp
    · rw [if_pos hc1, if_pos hc1]
      exact ⟨_, rfl, by rw [sampleR_length]; omega,
        fun x hx => sampleR_subset _ _ _ hx, sampleR_nodup _ _ _ hOnd⟩
    · rw [if_neg hc1, if_neg hc1]
      exact ⟨[], rfl, rfl, by simp, List.nodup_nil⟩
  rw [hv_eq, ← hv_len]
  have hvO : v.length ≤ O.length := by rw [hv_len]; split <;> omega
  have hvt : v.length ≤ target := by
    rw [hv_len]; split <;> omega
  -- Step 2: the liked sample.
  obtain ⟨w, hw_eq, hw_len, hw_iff⟩ :
      ∃ w : List Track,
        (if K ≠ [] ∧ 0 < target - v.length then
            v ++ sampleR r2
              (min K.length (min (target - v.length) (capOf target maxp))) K
          else v) = w ∧
        w.length = v.length +
          (if K ≠ [] ∧ 0 < target - v.length then
            min K.length (min (target - v.length) (capOf target maxp))
          else 0) ∧
        (∀ x ∈ O, (x ∈ w ↔ x ∈ v)) := by
    by_cases hc2 : K ≠ [] ∧ 0 < target - v.length
    · rw [if_pos hc2, if_pos hc2]
      refine ⟨_, rfl, ?_, ?_⟩
      · rw [List.length_append, sampleR_length]
        omega
      · intro x hxO
        constructor
        · intro hxw
          rcases List.mem_append.mp hxw with h | h
          · exact h
          · exfalso
            have hxK : x ∈ K := sampleR_subset _ _ _ h
            rw [hK] at hxK
            rw [hO] at hxO
            have h1 := (List.mem_filter.mp hxO).2
            have h2 := (List.mem_filter.mp hxK).2
            rw [h1] at h2
            simp at h2
        · intro hxv
          exact List.mem_append.mpr (Or.inl hxv)
    · rw [if_neg hc2, if_neg hc2]
      exact ⟨v, rfl, by omega, fun x _ => Iff.rfl⟩
  rw [hw_eq]
  set LC : Nat := if K ≠ [] ∧ 0 < target - v.length then
      min K.length (min (target - v.length) (capOf target maxp))
    else 0 with hLC
  have hLCle : LC ≤ target - v.length := by rw [hLC]; split <;> omega
  -- Step 3: the final fill from the remaining other songs.
  simp only [contains_eq_decide_mem]
  by_cases hc3 : O ≠ [] ∧ 0 < target - w.length
  · rw [if_pos hc3]
    have hav : (O.filter (fun t => !(decide (t ∈ w)))).length =
        O.length - v.length :=
      length_filter_not_mem O w v hOnd hv_nd hv_sub hw_iff
    by_cases hc4 : O.filter (fun t => !(decide (t ∈ w))) ≠ []
    · rw [if_pos hc4]
      rw [List.length_append, sampleR_length]
      omega
    · rw [if_neg hc4]
      have hav0 : (O.filter (fun t => !(decide (t ∈ w)))).length = 0 := by
        rw [not_not.mp hc4]
        rfl
      omega
  · rw [if_neg hc3]
    rcases not_and_or.mp hc3 with hO0 | hrem
    · have hO0' : O.length = 0 := by
        rw [not_not.mp hO0]
        rfl
      omega
    · omega

/-! Lemmas about insertion-ordered grouping (Python dicts of lists). -/

theorem addToGroups_forall {P : Track → String → Prop} :
    ∀ (g : List (String × List Track)) (k : String) (t : Track),
      (∀ p ∈ g, ∀ x ∈ p.2, P x p.1) → P t k →
      ∀ p ∈ addToGroups g k t, ∀ x ∈ p.2, P x p.1 := by
  intro g
  induction g with
  | nil =>
    intro k t _ hPt p hp x hx
    simp only [addToGroups, List.mem_singleton] at hp
    subst hp
    simp only [List.mem_singleton] at hx
    subst hx
    exact hPt
  | cons q rest ih =>
    intro k t hg hPt p hp x hx
    obtain ⟨k', ts⟩ := q
    simp only [addToGroups] at hp
    by_cases hk : k' = k
    · rw [if_pos hk] at hp
      rcases List.mem_cons.mp hp with rfl | hp'
      · rcases List.mem_append.mp hx with h | h
        · exact hg (k', ts) (List.mem_cons_self _ _) x h
        · simp only [List.mem_singleton] at h
          subst h
          rw [hk]
          exact hPt
      · exact hg p (List.mem_cons_of_mem _ hp') x hx
    · rw [if_neg hk] at hp
      rcases List.mem_cons.mp hp with rfl | hp'
      · exact hg (k', ts) (List.mem_cons_self _ _) x hx
      · exact ih k t (fun q hq => hg q (List.mem_cons_of_mem _ hq)) hPt p
          hp' x hx

theorem lookupG_addToGroups :
    ∀ (g : List (String × List Track)) (k' k : String) (t : Track),
      lookupG (addToGroups g k' t) k =
        lookupG g k ++ (if k' = k then [t] else []) := by
  intro g
  induction g with
  | nil =>
    intro k' k t
    simp only [addToGroups, lookupG]
    by_cases hk : k' = k
    · simp [hk]
    · simp [hk]
  | cons q rest ih =>
    intro k' k t
    obtain ⟨k0, ts⟩ := q
    simp only [addToGroups]
    by_cases h1 : k0 = k'
    · rw [if_pos h1]
      simp only [lookupG]
      by_cases h2 : k0 = k
      · rw [if_pos h2, if_pos h2, if_pos (h1 ▸ h2)]
      · rw [if_neg h2, if_neg h2]
        have : ¬ k' = k := fun h => h2 (h1.trans h)
        rw [if_neg this]
        simp
    · rw [if_neg h1]
      simp only [lookupG]
      by_cases h2 : k0 = k
      · rw [if_pos h2, if_pos h2]
        have : ¬ k' = k := fun h => h1 (h2.trans h.symm)
        rw [if_neg this]
        simp
      · rw [if_neg h2, if_neg h2]
        exact ih k' k t

theorem lookupG_albumGroups_aux :
    ∀ (l : List Track) (g : List (String × List Track)) (k : String),
      lookupG (l.foldl (fun g t =>
        match albumKey t with
        | none => g
        | some k0 => addToGroups g k0 t) g) k =
        lookupG g k ++ l.filter (fun t => decide (albumKey t = some k)) := by
  intro l
  induction l with
  | nil => intro g k; simp
  | cons t l' ih =>
    intro g k
    simp only [List.foldl_cons]
    cases htk : albumKey t with
    | none =>
      rw [ih g k]
      have : (decide (albumKey t = some k)) = false := by simp [htk]
      simp [List.filter_cons, this]
    | some k0 =>
      rw [ih (addToGroups g k0 t) k, lookupG_addToGroups]
      by_cases hk : k0 = k
      · subst hk
        have : (decide (albumKey t = some k0)) = true := by simp [htk]
        simp [List.filter_cons, this]
      · have : (decide (albumKey t = some k)) = false := by
          simp [htk, hk]
        simp [List.filter_cons, this, hk]

theorem lookupG_albumGroups (l : List Track) (k : String) :
    lookupG (albumGroups l) k =
      l.filter (fun t => decide (albumKey t = some k)) := by
  unfold albumGroups
  rw [lookupG_albumGroups_aux l [] k]
  rfl

theorem lookupG_mem :
    ∀ (g : List (String × List Track)) (k : String),
      lookupG g k ≠ [] → (k, lookupG g k) ∈ g := by
  intro g
  induction g with
  | nil => intro k h; simp [lookupG] at h
  | cons q rest ih =>
    intro k h
    obtain ⟨k0, ts⟩ := q
    simp only [lookupG] at h ⊢
    by_cases hk : k0 = k
    · rw [if_pos hk] at h ⊢
      subst hk
      exact List.mem_cons_self _ _
    · rw [if_neg hk] at h ⊢
      exact List.mem_cons_of_mem _ (ih k h)

theorem addToGroups_keys :
    ∀ (g : List (String × List Track)) (k : String) (t : Track),
      (addToGroups g k t).map Prod.fst =
        if k ∈ g.map Prod.fst then g.map Prod.fst
        else g.map Prod.fst ++ [k] := by
  intro g
  induction g with
  | nil => intro k t; simp [addToGroups]
  | cons q rest ih =>
    intro k t
    obtain ⟨k0, ts⟩ := q
    simp only [addToGroups, List.map_cons]
    by_cases hk : k0 = k
    · rw [if_pos hk]
      have : k ∈ k0 :: rest.map Prod.fst := by simp [hk]
      rw [if_pos this]
      simp
    · rw [if_neg hk]
      simp only [List.map_cons, ih k t]
      by_cases hmem : k ∈ rest.map Prod.fst
      · rw [if_pos hmem, if_pos (by simp [hmem])]
      · rw [if_neg hmem]
        have hnot : k ∉ (k0 :: rest.map Prod.fst) := by
          intro hin
          rcases List.mem_cons.mp hin with h | h
          · exact hk h.symm
          · exact hmem h
        rw [if_neg hnot]
        simp

theorem albumGroups_keys_nodup_aux :
    ∀ (l : List Track) (g : List (String × List Track)),
      (g.map Prod.fst).Nodup →
      ((l.foldl (fun g t =>
        match albumKey t with
        | none => g
        | some k0 => addToGroups g k0 t) g).map Prod.fst).Nodup := by
  intro l
  induction l with
  | nil => intro g h; exact h
  | cons t l' ih =>
    intro g h
    simp only [List.foldl_cons]
    cases htk : albumKey t with
    | none => exact ih g h
    | some k0 =>
      apply ih
      rw [addToGroups_keys]
      by_cases hmem : k0 ∈ g.map Prod.fst
      · rw [if_pos hmem]; exact h
      · rw [if_neg hmem]
        simp [List.nodup_append, h, hmem]

theorem albumGroups_keys_nodup (l : List Track) :
    ((albumGroups l).map Prod.fst).Nodup :=
  albumGroups_keys_nodup_aux l [] (by simp)

theorem foldl_albumGroups_forall {P : Track → String → Prop} :
    ∀ (l : List Track) (g : List (String × List Track)),
      (∀ p ∈ g, ∀ x ∈ p.2, P x p.1) →
      (∀ t ∈ l, ∀ k, albumKey t = some k → P t k) →
      ∀ p ∈ l.foldl (fun g t =>
        match albumKey t with
        | none => g
        | some k0 => addToGroups g k0 t) g, ∀ x ∈ p.2, P x p.1 := by
  intro l
  induction l with
  | nil => intro g hg _; exact hg
  | cons t l' ih =>
    intro g hg hl
    simp only [List.foldl_cons]
    cases htk : albumKey t with
    | none =>
      exact ih g hg (fun s hs => hl s (List.mem_cons_of_mem _ hs))
    | some k0 =>
      apply ih
      · exact addToGroups_forall g k0 t hg
          (hl t (List.mem_cons_self _ _) k0 htk)
      · exact fun s hs => hl s (List.mem_cons_of_mem _ hs)

theorem albumGroups_wf (l : List Track) :
    ∀ p ∈ albumGroups l, ∀ x ∈ p.2, albumKey x = some p.1 ∧ x ∈ l := by
  unfold albumGroups
  exact @foldl_albumGroups_forall
    (fun x k => albumKey x = some k ∧ x ∈ l) l [] (by simp)
    (fun t ht k hk => ⟨hk, ht⟩)

/-! Lemmas about the rebuild loop of the album cap. -/

theorem capGroups_flatten_length (r : Nat → Nat → Nat) (m : Nat) :
    ∀ (gs : List (String × List Track)) (i : Nat),
      ((capGroups r m i gs).flatten).length =
        (gs.map (fun kt => min m kt.2.length)).sum := by
  intro gs
  induction gs with
  | nil => intro i; rfl
  | cons kt rest ih =>
    intro i
    simp only [capGroups, List.flatten_cons, List.length_append,
      List.map_cons, List.sum_cons, ih (i + 1)]
    congr 1
    by_cases h : m < kt.2.length
    · rw [if_pos h, sampleR_length]
    · rw [if_neg h]
      omega

theorem capGroups_mem (r : Nat → Nat → Nat) (m : Nat) :
    ∀ (gs : List (String × List Track)) (i : Nat) (x : Track),
      x ∈ (capGroups r m i gs).flatten → ∃ p ∈ gs, x ∈ p.2 := by
  intro gs
  induction gs with
  | nil => intro i x hx; simp [capGroups] at hx
  | cons kt rest ih =>
    intro i x hx
    simp only [capGroups, List.flatten_cons, List.mem_append] at hx
    rcases hx with hx | hx
    · refine ⟨kt, List.mem_cons_self _ _, ?_⟩
      by_cases h : m < kt.2.length
      · rw [if_pos h] at hx
        exact sampleR_subset _ _ _ hx
      · rw [if_neg h] at hx
        exact hx
    · obtain ⟨p, hp, hxp⟩ := ih (i + 1) x hx
      exact ⟨p, List.mem_cons_of_mem _ hp, hxp⟩

theorem countAlbum_capGroups_zero (r : Nat → Nat → Nat) (m : Nat)
    (A : String) :
    ∀ (gs : List (String × List Track)) (i : Nat),
      (∀ p ∈ gs, ∀ x ∈ p.2, albumKey x = some p.1) →
      A ∉ gs.map Prod.fst →
      countAlbum ((capGroups r m i gs).flatten) A = 0 := by
  intro gs i hwf hA
  unfold countAlbum
  rw [List.countP_eq_zero]
  intro x hx
  obtain ⟨p, hp, hxp⟩ := capGroups_mem r m gs i x hx
  have hkey := hwf p hp x hxp
  rw [decide_eq_true_eq, hkey]
  intro h
  have : p.1 = A := Option.some.inj h
  exact hA (this ▸ List.mem_map.mpr ⟨p, hp, rfl⟩)

theorem countAlbum_capGroups (r : Nat → Nat → Nat) (m : Nat) (A : String) :
    ∀ (gs : List (String × List Track)) (i : Nat),
      (∀ p ∈ gs, ∀ x ∈ p.2, albumKey x = some p.1) →
      (gs.map Prod.fst).Nodup →
      ∀ tsA, (A, tsA) ∈ gs → m < tsA.length →
        countAlbum ((capGroups r m i gs).flatten) A = m := by
  intro gs
  induction gs with
  | nil => intro i _ _ tsA h; simp at h
  | cons kt rest ih =>
    intro i hwf hnd tsA hmem hlen
    obtain ⟨hhead, hndrest⟩ := List.nodup_cons.mp (by
      rw [List.map_cons] at hnd; exact hnd)
    have hwfrest : ∀ p ∈ rest, ∀ x ∈ p.2, albumKey x = some p.1 :=
      fun p hp => hwf p (List.mem_cons_of_mem _ hp)
    simp only [capGroups, List.flatten_cons]
    unfold countAlbum
    rw [List.countP_append]
    rcases List.mem_cons.mp hmem with heq | hmem'
    · have hk : kt.1 = A := by rw [← heq]
      have hts : kt.2 = tsA := by rw [← heq]
      have hzero : countAlbum ((capGroups r m (i + 1) rest).flatten) A = 0 :=
        countAlbum_capGroups_zero r m A rest (i + 1) hwfrest
          (by rw [← hk]; exact hhead)
      unfold countAlbum at hzero
      rw [hzero]
      rw [if_pos (by rw [hts]; exact hlen)]
      have hall : ∀ x ∈ sampleR (r i) m kt.2,
          (decide (albumKey x = some A)) = true := by
        intro x hx
        have hxkt : x ∈ kt.2 := sampleR_subset _ _ _ hx
        have := hwf kt (List.mem_cons_self _ _) x hxkt
        simp [this, hk]
      rw [List.countP_eq_length.mpr hall, sampleR_length]
      rw [hts]
      omega
    · have hkA : kt.1 ≠ A := by
        intro h
        exact hhead (h ▸ List.mem_map.mpr ⟨(A, tsA), hmem', by rw [← h]⟩)
      have hz : List.countP (fun t => decide (albumKey t = some A))
          (if m < kt.2.length then sampleR (r i) m kt.2 else kt.2) = 0 := by
        rw [List.countP_eq_zero]
        intro x hx
        have hxkt : x ∈ kt.2 := by
          by_cases h : m < kt.2.length
          · rw [if_pos h] at hx
            exact sampleR_subset _ _ _ hx
          · rw [if_neg h] at hx
            exact hx
        have hkey := hwf kt (List.mem_cons_self _ _) x hxkt
        rw [decide_eq_true_eq, hkey]
        intro h
        exact hkA (Option.some.inj h)
      rw [hz]
      have := ih (i + 1) hwfrest hndrest tsA hmem' hlen
      unfold countAlbum at this
      rw [this]
      omega

/-- C4 counterexample: when an album exceeds the cap, the playlist is
rebuilt from the album groups only, so a track with no album name — exempt
from grouping — is silently dropped instead of passed through. -/
theorem C4_null_album_counterexample :
    (⟨3, none, none, none, none⟩ : Track) ∈ c4playlist ∧
    albumKey ⟨3, none, none, none, none⟩ = none ∧
    (⟨3, none, none, none, none⟩ : Track) ∉
      limit_songs_per_album (fun _ _ => 0) c4playlist [] 1 := by
  refine ⟨by decide, by decide, by decide⟩

/-- C4 (amended): null-album tracks pass through `limit_songs_per_album`
only when no album exceeds the cap (the input is then returned unchanged);
as soon as some album is capped, the playlist is rebuilt from the album
groups and every null-album input track that the universe cannot re-supply
is absent from the output. -/
theorem C4_null_album_amended (r : Nat → Nat → Nat)
    (playlist univ : List Track) (m : Nat) (hm : 0 < m) :
    (albumsToReduce playlist m = [] →
      limit_songs_per_album r playlist univ m = playlist) ∧
    (∀ t, t ∈ playlist → albumKey t = none → t ∉ univ →
      albumsToReduce playlist m ≠ [] →
      t ∉ limit_songs_per_album r playlist univ m) := by
  have hm0 : ¬ m = 0 := by omega
  constructor
  · intro h
    simp only [limit_songs_per_album]
    rw [if_neg hm0, if_pos h]
  · intro t ht hnull hnuniv hne
    simp only [limit_songs_per_album]
    rw [if_neg hm0, if_neg hne]
    intro hmem
    have hF : t ∉ (capGroups r m 0 (albumGroups playlist)).flatten := by
      intro hx
      obtain ⟨p, hp, hxp⟩ := capGroups_mem r m _ 0 t hx
      have hk := (albumGroups_wf playlist p hp t hxp).1
      rw [hnull] at hk
      simp at hk
    split at hmem
    · split at hmem
      · rcases List.mem_append.mp hmem with h | h
        · exact hF h
        · have hav := sampleR_subset _ _ _ h
          exact hnuniv (List.mem_filter.mp hav).1
      · split at hmem
        · rcases List.mem_append.mp hmem with h | h
          · exact hF h
          · have hav := sampleR_subset _ _ _ h
            exact hnuniv (List.mem_filter.mp hav).1
        · exact hF hmem
    · exact hF hmem

theorem C4_null_album_amended_witness :
    0 < 1 ∧
    ((albumsToReduce c4playlist 1 = [] →
      limit_songs_per_album (fun _ _ => 0) c4playlist [] 1 = c4playlist) ∧
    (∀ t, t ∈ c4playlist → albumKey t = none → t ∉ ([] : List Track) →
      albumsToReduce c4playlist 1 ≠ [] →
      t ∉ limit_songs_per_album (fun _ _ => 0) c4playlist [] 1)) :=
  ⟨by decide, C4_null_album_amended (fun _ _ => 0) c4playlist [] 1
    (by decide)⟩

/-- C2 counterexample: the album-respecting backfill excludes only the
albums that were capped, so a random backfill pick can give an uncapped
album a second appearance even though a replacement from a fresh album is
available.  Playlist A, A, B with cap 1; the universe holds another B-track
and a C-track; a reachable random choice leaves album B with 2 tracks. -/
theorem C2_album_cap_counterexample :
    countAlbum c2playlist "B" = 1 ∧
    1 ≤ (c2universe.filter (fun t => decide (albumKey t ≠ some "A") &&
      !(decide (t ∈ c2playlist)))).length ∧
    countAlbum (limit_songs_per_album (fun _ _ => 0) c2playlist c2universe 1)
      "B" = 2 := by
  refine ⟨by decide, by decide, by decide⟩

/-- C2 (amended): every album whose input track count exceeds the cap
appears exactly `max_per_album` times in the output of
`limit_songs_per_album`, provided the universe holds enough tracks that are
outside the playlist and not from capped albums to cover the shortfall (so
the album-respecting backfill branch is taken).  An UNCAPPED album can
still end up over the cap via backfill — see the counterexample — and with
too small a safe-backfill pool the any-album fallback can even re-add
capped-album tracks. -/
theorem C2_album_cap (r : Nat → Nat → Nat) (playlist univ : List Track)
    (m : Nat) (A : String) (hm : 0 < m)
    (hover : m < countAlbum playlist A)
    (hfit : playlist.length - albumCapKeptLen playlist m ≤
      (albumSafeBackfill playlist univ m).length) :
    countAlbum (limit_songs_per_album r playlist univ m) A = m := by
  have hm0 : ¬ m = 0 := by omega
  have hlook : lookupG (albumGroups playlist) A =
      playlist.filter (fun t => decide (albumKey t = some A)) :=
    lookupG_albumGroups playlist A
  have hlen : (lookupG (albumGroups playlist) A).length =
      countAlbum playlist A := by
    rw [hlook]
    exact (List.countP_eq_length_filter _ _).symm
  have hne0 : lookupG (albumGroups playlist) A ≠ [] := by
    intro h
    rw [h] at hlen
    simp only [List.length_nil] at hlen
    omega
  have hmemG : (A, lookupG (albumGroups playlist) A) ∈ albumGroups playlist :=
    lookupG_mem _ A hne0
  have hlenG : m < (lookupG (albumGroups playlist) A).length := by omega
  have hAred : A ∈ albumsToReduce playlist m := by
    unfold albumsToReduce
    exact List.mem_map.mpr ⟨(A, lookupG (albumGroups playlist) A),
      List.mem_filter.mpr ⟨hmemG, by simpa using hlenG⟩, rfl⟩
  have hredne : albumsToReduce playlist m ≠ [] := by
    intro h
    rw [h] at hAred
    simp at hAred
  have hwf : ∀ p ∈ albumGroups playlist, ∀ x ∈ p.2,
      albumKey x = some p.1 :=
    fun p hp x hx => (albumGroups_wf playlist p hp x hx).1
  have hcount : countAlbum ((capGroups r m 0
      (albumGroups playlist)).flatten) A = m :=
    countAlbum_capGroups r m A _ 0 hwf (albumGroups_keys_nodup playlist) _
      hmemG hlenG
  have hFlen : ((capGroups r m 0 (albumGroups playlist)).flatten).length =
      albumCapKeptLen playlist m := capGroups_flatten_length r m _ 0
  have hFsub : ∀ x ∈ (capGroups r m 0 (albumGroups playlist)).flatten,
      x ∈ playlist := by
    intro x hx
    obtain ⟨p, hp, hxp⟩ := capGroups_mem r m _ 0 x hx
    exact (albumGroups_wf playlist p hp x hxp).2
  simp only [limit_songs_per_album]
  rw [if_neg hm0, if_neg hredne]
  set F := (capGroups r m 0 (albumGroups playlist)).flatten with hFdef
  set AV := univ.filter (fun t => !(F.contains t) &&
    (match albumKey t with
     | none => true
     | some k => !((albumsToReduce playlist m).contains k))) with hAVdef
  by_cases hneed : 0 < playlist.length - F.length
  · rw [if_pos hneed]
    have hmono : (albumSafeBackfill playlist univ m).length ≤ AV.length := by
      rw [hAVdef]
      unfold albumSafeBackfill
      rw [← List.countP_eq_length_filter, ← List.countP_eq_length_filter]
      apply List.countP_mono_left
      intro x _ hpx
      rw [Bool.and_eq_true] at hpx ⊢
      obtain ⟨h1, h2⟩ := hpx
      refine ⟨?_, h2⟩
      rw [contains_eq_decide_mem]
      simp only [Bool.not_eq_true', decide_eq_false_iff_not] at h1 ⊢
      intro hmemF
      exact h1 (hFsub x hmemF)
    have hAVlen : playlist.length - F.length ≤ AV.length := by omega
    rw [if_pos hAVlen]
    unfold countAlbum
    rw [List.countP_append]
    have hz : List.countP (fun t => decide (albumKey t = some A))
        (sampleR (r (albumGroups playlist).length)
          (playlist.length - F.length) AV) = 0 := by
      rw [List.countP_eq_zero]
      intro x hx
      have hxav := sampleR_subset _ _ _ hx
      rw [hAVdef] at hxav
      have hpred := (List.mem_filter.mp hxav).2
      rw [decide_eq_true_eq]
      intro hkey
      simp only [hkey, Bool.and_eq_true] at hpred
      have h2 := hpred.2
      rw [contains_eq_decide_mem] at h2
      simp only [Bool.not_eq_true', decide_eq_false_iff_not] at h2
      exact h2 hAred
    rw [hz]
    unfold countAlbum at hcount
    omega
  · rw [if_neg hneed]
    exact hcount

theorem C2_album_cap_witness :
    (0 < 1 ∧ 1 < countAlbum c2playlist "A" ∧
      c2playlist.length - albumCapKeptLen c2playlist 1 ≤
        (albumSafeBackfill c2playlist c2universe 1).length) ∧
    countAlbum (limit_songs_per_album (fun _ _ => 0) c2playlist c2universe 1)
      "A" = 1 :=
  ⟨⟨by decide, by decide, by decide⟩,
    C2_album_cap (fun _ _ => 0) c2playlist c2universe 1 "A" (by decide)
      (by decide) (by decide)⟩

/-! Lemmas for the reordering stages (mood clustering and
anti-consecutive-artist interleaving). -/

theorem insert_fold_perm (q : Nat → Nat) (mlen : Nat) :
    ∀ (xs : List (Nat × Track)) (acc : List Track),
      (xs.foldl (fun acc it =>
        if mlen < acc.length then
          acc.insertIdx (randintR (q it.1) mlen acc.length) it.2
        else acc ++ [it.2]) acc).Perm (acc ++ xs.map Prod.snd) := by
  intro xs
  induction xs with
  | nil => intro acc; simp
  | cons it xs' ih =>
    intro acc
    simp only [List.foldl_cons, List.map_cons]
    have hstep : (if mlen < acc.length then
        acc.insertIdx (randintR (q it.1) mlen acc.length) it.2
      else acc ++ [it.2]).Perm (acc ++ [it.2]) := by
      split
      · rename_i h
        have hpos : randintR (q it.1) mlen acc.length ≤ acc.length := by
          unfold randintR
          have hmod : q it.1 % (acc.length + 1 - mlen) <
              acc.length + 1 - mlen := Nat.mod_lt _ (by omega)
          omega
        exact (List.perm_insertIdx _ _ hpos).trans
          (List.perm_append_singleton _ _).symm
      · exact List.Perm.refl _
    refine (ih _).trans ?_
    refine ((List.Perm.append_right _ hstep)).trans ?_
    rw [List.append_assoc]
    exact List.Perm.refl _

/-- C10: `group_by_mood` returns a permutation of its input in every
branch — the whole-list shuffle when no track has mood data, and the
mood-selected arrangement with mood-less tracks interleaved otherwise. -/
theorem C10_group_by_mood_perm (r : Nat → Nat → Nat)
    (playlist_songs : List Track) :
    (group_by_mood r playlist_songs).Perm playlist_songs := by
  have hpart : (playlist_songs.filter (fun t => (moodKey t).isSome) ++
      playlist_songs.filter (fun t => (moodKey t).isNone)).Perm
      playlist_songs := by
    have hcong : playlist_songs.filter (fun t => (moodKey t).isNone) =
        playlist_songs.filter (fun t => !((moodKey t).isSome)) :=
      List.filter_congr (fun t _ => by cases moodKey t <;> rfl)
    rw [hcong]
    exact List.filter_append_perm _ _
  simp only [group_by_mood]
  split
  · exact shuffleR_perm _ _
  · split
    · exact shuffleR_perm _ _
    · refine (insert_fold_perm (r 5) _ _ _).trans ?_
      rw [List.enum_map_snd]
      refine List.Perm.trans (List.Perm.append
        (List.Perm.append (shuffleR_perm _ _) (shuffleR_perm _ _))
        (shuffleR_perm _ _)) ?_
      refine List.Perm.trans (List.Perm.append_right _
        (List.filter_append_perm _ _)) hpart

theorem flattenG_addToGroups :
    ∀ (g : List (String × List Track)) (k : String) (t : Track),
      (flattenG (addToGroups g k t)).Perm (flattenG g ++ [t]) := by
  intro g
  induction g with
  | nil => intro k t; simp [addToGroups, flattenG]
  | cons q rest ih =>
    intro k t
    obtain ⟨k0, ts⟩ := q
    simp only [addToGroups]
    by_cases hk : k0 = k
    · rw [if_pos hk]
      simp only [flattenG, List.map_cons, List.flatten_cons]
      rw [List.append_assoc, List.append_assoc]
      refine List.Perm.append_left ts ?_
      exact (List.perm_append_singleton t _).symm
    · rw [if_neg hk]
      simp only [flattenG, List.map_cons, List.flatten_cons]
      rw [List.append_assoc]
      exact List.Perm.append_left ts (ih k t)

theorem flattenG_artistGroups_aux :
    ∀ (l : List Track) (g : List (String × List Track)),
      (flattenG (l.foldl (fun g t => addToGroups g (groupKey t) t)
        g)).Perm (flattenG g ++ l) := by
  intro l
  induction l with
  | nil => intro g; simp
  | cons t l' ih =>
    intro g
    simp only [List.foldl_cons]
    refine (ih _).trans ?_
    refine (List.Perm.append_right l' (flattenG_addToGroups g _ t)).trans ?_
    rw [List.append_assoc]
    exact List.Perm.refl _

theorem flattenG_artistGroups (l : List Track) :
    (flattenG (artistGroups l)).Perm l := by
  unfold artistGroups
  have := flattenG_artistGroups_aux l []
  simpa [flattenG] using this

theorem flattenG_shuffleGroups (r : Nat → Nat → Nat) :
    ∀ (g : List (String × List Track)) (i : Nat),
      (flattenG (shuffleGroups r i g)).Perm (flattenG g) := by
  intro g
  induction g with
  | nil => intro i; exact List.Perm.refl _
  | cons kt rest ih =>
    intro i
    simp only [shuffleGroups, flattenG, List.map_cons, List.flatten_cons]
    exact List.Perm.append (shuffleR_perm _ _) (ih (i + 1))

theorem flattenG_popLastG :
    ∀ (g : List (String × List Track)) (a : String) (t : Track),
      (lookupG g a).getLast? = some t →
      (t :: flattenG (popLastG g a)).Perm (flattenG g) := by
  intro g
  induction g with
  | nil => intro a t h; simp [lookupG] at h
  | cons q rest ih =>
    intro a t h
    obtain ⟨k0, ts⟩ := q
    simp only [lookupG] at h
    simp only [popLastG]
    by_cases hk : k0 = a
    · rw [if_pos hk] at h ⊢
      have hne : ts ≠ [] := by
        intro hts
        rw [hts] at h
        simp at h
      have hts : ts.dropLast ++ [t] = ts := by
        have hdl := List.dropLast_append_getLast hne
        rw [List.getLast?_eq_getLast ts hne] at h
        rw [Option.some.inj h] at hdl
        exact hdl
      simp only [flattenG, List.map_cons, List.flatten_cons]
      calc (t :: (ts.dropLast ++ (rest.map Prod.snd).flatten)).Perm
            ((ts.dropLast ++ [t]) ++ (rest.map Prod.snd).flatten) := by
            rw [List.append_assoc]
            exact List.perm_middle.symm
        _ = ts ++ (rest.map Prod.snd).flatten := by rw [hts]
    · rw [if_neg hk] at h ⊢
      simp only [flattenG, List.map_cons, List.flatten_cons]
      refine List.Perm.trans List.perm_middle.symm ?_
      exact List.Perm.append_left ts (ih a t h)

theorem reorderLoop_perm (r : Nat → Nat → Nat) (n : Nat)
    (queue : List String) :
    ∀ (fuel step : Nat) (g : List (String × List Track))
      (reordered : List Track),
      ((reorderLoop r n queue step fuel g reordered).1 ++
        flattenG (reorderLoop r n queue step fuel g reordered).2).Perm
        (reordered ++ flattenG g) := by
  intro fuel
  induction fuel with
  | zero => intro step g reordered; exact List.Perm.refl _
  | succ fuel ih =>
    intro step g reordered
    rw [reorderLoop]
    by_cases hlen : reordered.length < n
    · rw [if_pos hlen]
      split
      · exact List.Perm.refl _
      · rename_i a hnext
        split
        · exact List.Perm.refl _
        · rename_i t hlast
          refine (ih _ _ _).trans ?_
          rw [List.append_assoc]
          exact List.Perm.append_left reordered
            (flattenG_popLastG g a t hlast)
    · rw [if_neg hlen]

/-- C7: `prevent_consecutive_artists` returns a permutation of its input
for every input playlist and every sequence of random choices: the
interleave-and-append structure conserves the multiset of tracks, and the
final truncation is a no-op because the total count never changes. -/
theorem C7_prevent_consecutive_perm (r : Nat → Nat → Nat)
    (playlist_songs : List Track) :
    (prevent_consecutive_artists r playlist_songs).Perm playlist_songs := by
  simp only [prevent_consecutive_artists]
  split
  · exact List.Perm.refl _
  · split
    · exact List.Perm.refl _
    · have hloop := reorderLoop_perm r playlist_songs.length
        (shuffleR (r (artistGroups playlist_songs).length)
          ((shuffleGroups r 0 (artistGroups playlist_songs)).map Prod.fst))
        playlist_songs.length ((artistGroups playlist_songs).length + 1)
        (shuffleGroups r 0 (artistGroups playlist_songs)) []
      rw [List.nil_append] at hloop
      have hperm := hloop.trans ((flattenG_shuffleGroups r
        (artistGroups playlist_songs) 0).trans
        (flattenG_artistGroups playlist_songs))
      have hlen := hperm.length_eq
      rw [List.take_of_length_le (le_of_eq hlen)]
      exact hperm

/-! Lemmas about the artist-balancer. -/

theorem mem_firstOccs : ∀ (l : List String) (x : String),
    x ∈ firstOccs l ↔ x ∈ l := by
  intro l
  induction l with
  | nil => intro x; simp [firstOccs]
  | cons a as ih =>
    intro x
    simp only [firstOccs, List.mem_cons, List.mem_filter]
    by_cases hx : x = a
    · simp [hx]
    · simp [hx, ih]

theorem firstOccs_nodup : ∀ l : List String, (firstOccs l).Nodup := by
  intro l
  induction l with
  | nil => simp [firstOccs]
  | cons a as ih =>
    simp only [firstOccs, List.nodup_cons]
    constructor
    · intro h
      have := (List.mem_filter.mp h).2
      simp at this
    · exact ih.filter _

theorem foldl_erase_eq_filter {α : Type} [DecidableEq α] :
    ∀ (S bal : List α), bal.Nodup →
      S.foldl (fun l t => l.erase t) bal =
        bal.filter (fun t => !(decide (t ∈ S))) := by
  intro S
  induction S with
  | nil => intro bal _; simp
  | cons s S' ih =>
    intro bal hnd
    simp only [List.foldl_cons]
    rw [ih (bal.erase s) (hnd.erase s), hnd.erase_eq_filter s,
      List.filter_filter]
    apply List.filter_congr
    intro x _
    by_cases hxs : x = s
    · simp [hxs]
    · by_cases hxS : x ∈ S' <;> simp [hxs, hxS]

theorem reduceArtist_nodup (r : Nat → Nat) (cap : Nat) (bal : List Track)
    (b : String) (h : bal.Nodup) : (reduceArtist r cap bal b).Nodup := by
  unfold reduceArtist
  rw [foldl_erase_eq_filter _ _ h]
  exact h.filter _

theorem reduceArtist_countKey_self (r : Nat → Nat) (cap : Nat)
    (bal : List Track) (b : String) (h : bal.Nodup)
    (hc : cap < countKey bal b) :
    countKey (reduceArtist r cap bal b) b = cap := by
  unfold reduceArtist
  rw [foldl_erase_eq_filter _ _ h]
  set AS := bal.filter (fun t => decide (keyOf t = some b)) with hAS
  set keep := sampleR r cap AS with hkeep
  set remove := AS.filter (fun t => !(keep.contains t)) with hremove
  have hASnd : AS.Nodup := h.filter _
  have hASlen : cap ≤ AS.length := by
    unfold countKey at hc
    rw [List.countP_eq_length_filter, ← hAS] at hc
    omega
  have hkeeplen : keep.length = cap := by
    rw [hkeep, sampleR_length]; omega
  have hkeepnd : keep.Nodup := sampleR_nodup cap r AS hASnd
  have hkeepAS : ∀ x ∈ keep, x ∈ AS := fun x hx => sampleR_subset _ _ _ hx
  have hkeepsub : ∀ x ∈ keep, x ∈ bal := by
    intro x hx
    exact (List.mem_filter.mp (hkeepAS x hx)).1
  unfold countKey
  rw [List.countP_filter]
  have hcong : bal.countP (fun t => decide (keyOf t = some b) &&
      !(decide (t ∈ remove))) =
      bal.countP (fun t => decide (t ∈ keep)) := by
    apply List.countP_congr
    intro x hx
    by_cases hk : x ∈ keep
    · have hxAS : x ∈ AS := hkeepAS x hk
      have hkey : keyOf x = some b := by
        have := (List.mem_filter.mp hxAS).2
        simpa using this
      have hnr : x ∉ remove := by
        intro hmem
        have h2 := (List.mem_filter.mp hmem).2
        rw [contains_eq_decide_mem] at h2
        simp [hk] at h2
      simp [hkey, hnr, hk]
    · by_cases hkey : keyOf x = some b
      · have hxAS : x ∈ AS := by
          rw [hAS]
          exact List.mem_filter.mpr ⟨hx, by simp [hkey]⟩
        have hr : x ∈ remove := by
          rw [hremove]
          refine List.mem_filter.mpr ⟨hxAS, ?_⟩
          rw [contains_eq_decide_mem]
          simp [hk]
        simp [hkey, hr, hk]
      · simp [hkey, hk]
  rw [hcong, countP_mem_of_nodup _ bal h hkeepnd hkeepsub, hkeeplen]

theorem reduceArtist_countKey_other (r : Nat → Nat) (cap : Nat)
    (bal : List Track) (x b : String) (h : bal.Nodup) (hx : x ≠ b) :
    countKey (reduceArtist r cap bal x) b = countKey bal b := by
  unfold reduceArtist
  rw [foldl_erase_eq_filter _ _ h]
  set AS := bal.filter (fun t => decide (keyOf t = some x)) with hAS
  set keep := sampleR r cap AS with hkeep
  set remove := AS.filter (fun t => !(keep.contains t)) with hremove
  unfold countKey
  rw [List.countP_filter]
  apply List.countP_congr
  intro t _
  by_cases hkey : keyOf t = some b
  · have hnr : t ∉ remove := by
      intro hmem
      have h1 := (List.mem_filter.mp ((List.mem_filter.mp hmem).1)).2
      rw [decide_eq_true_eq, hkey] at h1
      exact hx (Option.some.inj h1).symm
    simp [hkey, hnr]
  · simp [hkey]

/-- Behaviour of the whole per-artist reduction loop: it preserves
deduplication; it leaves the count of any artist not in the processed list
unchanged; and it cuts any processed artist that was over the cap down to
exactly the cap. -/
theorem reduce_fold_master (r : Nat → Nat → Nat) (cap : Nat) (a : String) :
    ∀ (as : List (Nat × String)) (bal : List Track), bal.Nodup →
      (as.map Prod.snd).Nodup →
      ((as.foldl (fun l ia => reduceArtist (r ia.1) cap l ia.2) bal).Nodup ∧
       (a ∉ as.map Prod.snd →
        countKey (as.foldl (fun l ia => reduceArtist (r ia.1) cap l ia.2)
          bal) a = countKey bal a) ∧
       (a ∈ as.map Prod.snd → cap < countKey bal a →
        countKey (as.foldl (fun l ia => reduceArtist (r ia.1) cap l ia.2)
          bal) a = cap)) := by
  intro as
  induction as with
  | nil =>
    intro bal hnd _
    exact ⟨hnd, fun _ => rfl, fun hmem => by simp at hmem⟩
  | cons ib as' ih =>
    intro bal hnd hsnd
    rw [List.map_cons] at hsnd
    obtain ⟨hb_notin, hsnd'⟩ := List.nodup_cons.mp hsnd
    have hnd' : (reduceArtist (r ib.1) cap bal ib.2).Nodup :=
      reduceArtist_nodup _ _ _ _ hnd
    obtain ⟨ihnd, ihkeep, ihcap⟩ := ih (reduceArtist (r ib.1) cap bal ib.2)
      hnd' hsnd'
    refine ⟨by simpa using ihnd, ?_, ?_⟩
    · intro hnotin
      simp only [List.map_cons, List.mem_cons, not_or] at hnotin
      obtain ⟨hne, hnotin'⟩ := hnotin
      simp only [List.foldl_cons]
      rw [ihkeep hnotin',
        reduceArtist_countKey_other _ _ _ _ _ hnd (fun h => hne h.symm)]
    · intro hmem hover
      simp only [List.map_cons, List.mem_cons] at hmem
      simp only [List.foldl_cons]
      rcases hmem with hba | hmem'
      · have hnotin' : a ∉ as'.map Prod.snd := by
          rw [hba]; exact hb_notin
        rw [ihkeep hnotin']
        rw [hba] at hover ⊢
        exact reduceArtist_countKey_self _ _ _ _ hnd hover
      · by_cases hab : ib.2 = a
        · have hnotin' : a ∉ as'.map Prod.snd := hab ▸ hb_notin
          rw [ihkeep hnotin']
          rw [← hab] at hover ⊢
          exact reduceArtist_countKey_self _ _ _ _ hnd hover
        · have hother : countKey (reduceArtist (r ib.1) cap bal ib.2) a =
              countKey bal a :=
            reduceArtist_countKey_other _ _ _ _ _ hnd hab
          exact ihcap hmem' (hother ▸ hover)

/-- C1 counterexample: the backfill in `balance_artist_representation` only
excludes artists that were over the cap, so it can push an artist that was
exactly at the cap above it even though an alternative backfill track from
a fresh artist exists.  With 3 A-tracks and 2 B-tracks (cap 2) and a
universe holding one more B-track and a C-track, a reachable random choice
leaves B with 3 > 2 tracks. -/
theorem C1_balance_counterexample :
    capOf c1playlist.length (2/5) = 2 ∧
    countKey c1playlist "B" = 2 ∧
    2 ≤ (c1universe.filter (fun t => decide (keyOf t ≠ some "A"))).length ∧
    countKey (balance_artist_representation (fun _ _ => 0) c1playlist
      c1universe (2/5)) "B" = 3 := by
  have hcap : capOf c1playlist.length (2/5) = 2 := by
    rw [show c1playlist.length = 5 from rfl]
    unfold capOf
    norm_num
    rfl
  refine ⟨hcap, by decide, by decide, ?_⟩
  simp only [balance_artist_representation, hcap]
  decide

/-- C1 (amended): for a deduplicated playlist, every artist whose input
track count exceeds the cap `floor(len * max_share)` appears exactly `cap`
times in the output of `balance_artist_representation`, for every universe
and every sequence of random choices.  (An artist at or below the cap may
still be pushed above it by backfill — see the counterexample — so the cap
is guaranteed only for the artists the balancer actually trimmed.) -/
theorem C1_balance_cap (r : Nat → Nat → Nat)
    (playlist univ : List Track) (maxp : ℚ) (a : String)
    (_hpos : 0 ≤ maxp) (hnd : playlist.Nodup)
    (hover : capOf playlist.length maxp < countKey playlist a) :
    countKey (balance_artist_representation r playlist univ maxp) a =
      capOf playlist.length maxp := by
  set cap := capOf playlist.length maxp with hcap
  have hmem : a ∈ overCapArtists playlist cap := by
    unfold overCapArtists
    rw [List.mem_filter]
    constructor
    · rw [mem_firstOccs]
      have hpos : 0 < countKey playlist a := by omega
      unfold countKey at hpos
      rw [List.countP_pos_iff] at hpos
      obtain ⟨t, ht, hkey⟩ := hpos
      rw [decide_eq_true_eq] at hkey
      exact List.mem_filterMap.mpr ⟨t, ht, hkey⟩
    · simpa using hover
  have hne : overCapArtists playlist cap ≠ [] := by
    intro h
    rw [h] at hmem
    simp at hmem
  simp only [balance_artist_representation]
  rw [if_neg hne]
  have hsnd : (((overCapArtists playlist cap).enum).map Prod.snd).Nodup := by
    rw [List.enum_map_snd]
    exact (firstOccs_nodup _).filter _
  obtain ⟨hbnd, _, hbcap⟩ := reduce_fold_master r cap a
    ((overCapArtists playlist cap).enum) playlist hnd hsnd
  have hbala : countKey (((overCapArtists playlist cap).enum).foldl
      (fun l ia => reduceArtist (r ia.1) cap l ia.2) playlist) a = cap :=
    hbcap (by rw [List.enum_map_snd]; exact hmem) hover
  set bal := ((overCapArtists playlist cap).enum).foldl
    (fun l ia => reduceArtist (r ia.1) cap l ia.2) playlist with hbal
  obtain ⟨extra, hout, hextra⟩ :
      ∃ extra : List Track,
        (if 0 < playlist.length - bal.length then
          (if playlist.length - bal.length ≤
              ((univ.filter (fun t => !(bal.contains t))).filter
                (fun t => match keyOf t with
                  | none => true
                  | some x => !((overCapArtists playlist cap).contains x))).length
            then bal ++ sampleR (r (overCapArtists playlist cap).length)
              (playlist.length - bal.length)
              ((univ.filter (fun t => !(bal.contains t))).filter
                (fun t => match keyOf t with
                  | none => true
                  | some x => !((overCapArtists playlist cap).contains x)))
            else bal ++ ((univ.filter (fun t => !(bal.contains t))).filter
              (fun t => match keyOf t with
                | none => true
                | some x => !((overCapArtists playlist cap).contains x))))
        else bal) = bal ++ extra ∧
        ∀ t ∈ extra,
          t ∈ (univ.filter (fun t => !(bal.contains t))).filter
            (fun t => match keyOf t with
              | none => true
              | some x => !((overCapArtists playlist cap).contains x)) := by
    by_cases h1 : 0 < playlist.length - bal.length
    · rw [if_pos h1]
      by_cases h2 : playlist.length - bal.length ≤
          ((univ.filter (fun t => !(bal.contains t))).filter
            (fun t => match keyOf t with
              | none => true
              | some x => !((overCapArtists playlist cap).contains x))).length
      · rw [if_pos h2]
        exact ⟨_, rfl, fun t ht => sampleR_subset _ _ _ ht⟩
      · rw [if_neg h2]
        exact ⟨_, rfl, fun t ht => ht⟩
    · rw [if_neg h1]
      exact ⟨[], (List.append_nil bal).symm, by simp⟩
  rw [hout]
  unfold countKey
  rw [List.countP_append]
  have hzero : extra.countP (fun t => decide (keyOf t = some a)) = 0 := by
    rw [List.countP_eq_zero]
    intro t ht
    have hfa := hextra t ht
    have hpred := (List.mem_filter.mp hfa).2
    rw [decide_eq_true_eq]
    intro hkey
    rw [hkey] at hpred
    simp only [contains_eq_decide_mem] at hpred
    simp only [Bool.not_eq_true', decide_eq_false_iff_not] at hpred
    exact hpred hmem
  rw [hzero]
  unfold countKey at hbala
  omega

theorem C1_balance_cap_witness :
    ((0 : ℚ) ≤ 2/5 ∧ c1playlist.Nodup ∧
      capOf c1playlist.length (2/5) < countKey c1playlist "A") ∧
    countKey (balance_artist_representation (fun _ _ => 0) c1playlist
        c1universe (2/5)) "A" = capOf c1playlist.length (2/5) := by
  have hcap : capOf c1playlist.length (2/5) = 2 := by
    rw [show c1playlist.length = 5 from rfl]
    unfold capOf
    norm_num
    rfl
  refine ⟨⟨by norm_num, by decide, ?_⟩,
    C1_balance_cap (fun _ _ => 0) c1playlist c1universe (2/5) "A"
      (by norm_num) (by decide) ?_⟩
  · rw [hcap]; decide
  · rw [hcap]; decide

/-- C5 counterexample: with a non-empty liked set, `target_size = 10`,
`max_liked_share = 1/2` and `min_variety_share = 1/10`, a pool of 1 other
track plus 10 liked tracks (11 ≥ 10 combined) yields only 6 tracks: the
liked-share cap stops the liked fill at 5 and the other pool is already
exhausted, so the claimed "length = target whenever the pools combined have
at least target_size tracks" fails. -/
theorem C5_length_counterexample :
    10 ≤ c5pool.length ∧
    (prefer_liked_artists (fun _ => 0) (fun _ => 0) (fun _ => 0) (fun _ => 0)
        c5pool ["L"] 10 (1/2) (1/10)).length = 6 := by
  constructor
  · decide
  · have hmax : capOf 10 (1/2) = 5 := by unfold capOf; norm_num; rfl
    have hmin : capOf 10 (1/10) = 1 := by unfold capOf; norm_num
    simp only [prefer_liked_artists, hmax, hmin]
    decide

/-- C5 (amended): for a non-empty liked set, a deduplicated pool and a
variety share of at most 1, the output of `prefer_liked_artists` never
exceeds `target_count`; and it reaches `target_count` exactly whenever the
other pool plus the liked pool, the latter counted at most up to the
liked-share cap `floor(target * max_liked_share)`, contain at least
`target_count` tracks.  (The unamended claim counted the full liked pool,
which the cap can make unreachable.) -/
theorem C5_prefer_liked_length (r0 r1 r2 r3 : Nat → Nat)
    (songs : List Track) (liked : List String) (target : Nat)
    (maxp minp : ℚ) (hl : liked ≠ []) (hnd : songs.Nodup)
    (hminp : minp ≤ 1) :
    (prefer_liked_artists r0 r1 r2 r3 songs liked target maxp minp).length ≤
      target ∧
    (target ≤ (otherPool songs liked).length +
        min (likedPool songs liked).length (capOf target maxp) →
      (prefer_liked_artists r0 r1 r2 r3 songs liked target maxp minp).length =
        target) := by
  have hform := prefer_liked_length_formula r0 r1 r2 r3 songs liked target
    maxp minp hl hnd hminp
  have hVle : varietyCount songs liked target minp ≤
      (otherPool songs liked).length := by
    unfold varietyCount; split <;> omega
  constructor
  · rw [hform]; omega
  · intro hpool
    rw [hform]
    by_cases hc : likedPool songs liked ≠ [] ∧
        0 < target - varietyCount songs liked target minp
    · have hval : likedCount songs liked target maxp minp =
          min (likedPool songs liked).length
            (min (target - varietyCount songs liked target minp)
              (capOf target maxp)) := by
        unfold likedCount; rw [if_pos hc]
      rw [hval]
      omega
    · have hval : likedCount songs liked target maxp minp = 0 := by
        unfold likedCount; rw [if_neg hc]
      rw [hval]
      rcases not_and_or.mp hc with hK | hV
      · have hK0 : (likedPool songs liked).length = 0 := by
          rw [not_not.mp hK]; rfl
        omega
      · omega

theorem C5_prefer_liked_length_witness :
    ((["L"] : List String) ≠ [] ∧ c5pool.Nodup ∧ (1/10 : ℚ) ≤ 1) ∧
    ((prefer_liked_artists (fun _ => 1) (fun _ => 1) (fun _ => 1)
        (fun _ => 1) c5pool ["L"] 8 (9/10) (1/10)).length ≤ 8 ∧
      (8 ≤ (otherPool c5pool ["L"]).length +
          min (likedPool c5pool ["L"]).length (capOf 8 (9/10)) →
        (prefer_liked_artists (fun _ => 1) (fun _ => 1) (fun _ => 1)
            (fun _ => 1) c5pool ["L"] 8 (9/10) (1/10)).length = 8)) :=
  ⟨⟨by decide, by decide, by norm_num⟩,
    C5_prefer_liked_length _ _ _ _ c5pool ["L"] 8 (9/10) (1/10)
      (by decide) (by decide) (by norm_num)⟩

/-- C6: with `target_size = 50` and `min_variety_share = 1/10` (so a
variety floor of 5), whenever the pool holds at least 5 tracks whose artist
key is not in the liked set, the output of `prefer_liked_artists` holds at
least 5 such tracks, for every value of `max_liked_share`, every liked set
and every sequence of random choices. -/
theorem C6_variety_floor (r0 r1 r2 r3 : Nat → Nat) (songs : List Track)
    (liked : List String) (maxp : ℚ)
    (hother : 5 ≤ (songs.filter (notLikedB liked)).length) :
    5 ≤ (prefer_liked_artists r0 r1 r2 r3 songs liked 50 maxp
          (1/10)).countP (notLikedB liked) := by
  have hcap : capOf 50 (1/10) = 5 := by unfold capOf; norm_num; rfl
  by_cases hl : liked = []
  · subst hl
    simp only [prefer_liked_artists]
    rw [if_pos trivial]
    have hall : ∀ t ∈ sampleR r0 (min songs.length 50) songs,
        notLikedB [] t = true := by
      intro t _
      unfold notLikedB
      cases keyOf t <;> simp
    rw [List.countP_eq_length.mpr hall, sampleR_length]
    have h5 : 5 ≤ songs.length :=
      le_trans hother (List.length_filter_le _ _)
    omega
  · simp only [prefer_liked_artists, hcap]
    rw [if_neg hl]
    set O := songs.filter (notLikedB liked) with hO
    have hO5 : 5 ≤ O.length := hother
    have hOne : O ≠ [] := by
      intro h
      rw [h] at hO5
      simp at hO5
    have hs1eq : (if O ≠ [] ∧ 0 < 5 then sampleR r1 (min O.length 5) O
        else []) = sampleR r1 (min O.length 5) O :=
      if_pos ⟨hOne, by omega⟩
    rw [hs1eq]
    have hbase : 5 ≤ (sampleR r1 (min O.length 5) O).countP
        (notLikedB liked) := by
      have hcnt : (sampleR r1 (min O.length 5) O).countP (notLikedB liked) =
          (sampleR r1 (min O.length 5) O).length := by
        rw [List.countP_eq_length]
        intro t ht
        have hmem := sampleR_subset _ r1 O ht
        rw [hO] at hmem
        exact (List.mem_filter.mp hmem).2
      rw [hcnt, sampleR_length]
      omega
    repeat' split
    all_goals try simp only [List.countP_append]
    all_goals omega

theorem C6_variety_floor_witness :
    5 ≤ ((c5pool.filter (notLikedB ["X"])).length) ∧
    5 ≤ (prefer_liked_artists (fun _ => 0) (fun _ => 0) (fun _ => 0)
          (fun _ => 0) c5pool ["X"] 50 (9/10) (1/10)).countP
        (notLikedB ["X"]) :=
  ⟨by decide,
    C6_variety_floor _ _ _ _ c5pool ["X"] (9/10) (by decide)⟩

theorem C9_rotation_log_fifo_witness :
    1 ≤ 2 ∧
    ((rotation_log_append ["Jazz", "Metal"] "Pop" 2).length ≤ 2 ∧
     rotation_log_append ["Jazz", "Metal"] "Pop" 2 =
       (["Jazz", "Metal"] ++ ["Pop"]).drop ((["Jazz", "Metal"].length + 1) - 2)) :=
  ⟨by decide, C9_rotation_log_fifo ["Jazz", "Metal"] "Pop" 2 (by decide)⟩

end PPG
